import Mathlib

/-!
Verification development for the Kairo "maestro" cognitive-state core
(`kairo/maestro/modules/state_manager.py`, `emotion_engine.py`,
`idle_processor.py`, `config.py`).

All numeric state is modelled over `ℚ` (the Python floats only ever undergo
additions, subtractions, multiplications, min/max and comparisons in the code
under study, so rational arithmetic is an exact model of the intended real
arithmetic).  Python `dict`s keyed by strings are modelled as association
lists preserving insertion order, matching dict iteration/update semantics.
-/

namespace Kairo

/-- Model of Python's `in` substring operator restricted to prefix matching:
`charsStartsWith p t` is true iff `p` is a prefix of `t`. -/
def charsStartsWith : List Char → List Char → Bool
  | [], _ => true
  | _ :: _, [] => false
  | p :: ps, t :: ts => p == t && charsStartsWith ps ts

/-- Model of Python's `pat in text` substring test on explicit char lists. -/
def charsContains : List Char → List Char → Bool
  | pat, [] => pat.isEmpty
  | pat, t :: ts => charsStartsWith pat (t :: ts) || charsContains pat ts

/-- Here `strContains text pat` models the Python expression `pat in text`. -/
def strContains (text pat : String) : Bool :=
  charsContains pat.data text.data

/-- Models Python's `str.lower()` — per-character lowercasing (the keyword
tables only contain unaccented lowercase letters, for which ASCII
lowercasing coincides with Python's full Unicode lowering). -/
def strLower (s : String) : String :=
  ⟨s.data.map Char.toLower⟩

/-- Lookup with default, modelling Python `d.get(k, default)` on an
insertion-ordered association list. -/
def getVal (m : List (String × ℚ)) (k : String) (d : ℚ) : ℚ :=
  match m.find? (fun p => p.1 == k) with
  | some p => p.2
  | none => d

/-- Key-update modelling Python `d[k] = v`: overwrite the entry in place if
the key is present, otherwise append a new entry at the end (dict insertion
order).  The association lists these operations build have unique keys, as
Python dicts do, so replacing the first matching binding is the dict
semantics. -/
def setVal : List (String × ℚ) → String → ℚ → List (String × ℚ)
  | [], k, v => [(k, v)]
  | p :: m, k, v => if p.1 == k then (k, v) :: m else p :: setVal m k v

/-- Embedding of `EMOTION_CONFIG["emotions"]` from `config.py`. -/
def emotionsList : List String :=
  ["joy", "sadness", "anger", "fear", "surprise", "interest"]

/-- Embedding of `EMOTION_CONFIG["default_values"]` from `config.py`. -/
def defaultEmotionalState : List (String × ℚ) :=
  [("joy", 5), ("sadness", 0), ("anger", 0), ("fear", 0),
   ("surprise", 0), ("interest", 5)]

/-- Embedding of `EMOTION_CONFIG["decay_rates"]` from `config.py`, with the `.get(e, 0.1)`
default used by `EmotionEngine._apply_emotional_decay`. -/
def decayRate (e : String) : ℚ :=
  getVal [("joy", 1/10), ("sadness", 1/20), ("anger", 1/5),
          ("fear", 3/20), ("surprise", 3/10), ("interest", 1/20)] e (1/10)

/-- Embedding of `PERSONALITY_CONFIG["initial_traits"]` from `config.py`. -/
def initialTraits : List (String × ℚ) :=
  [("curiosity", 5), ("empathy", 5), ("creativity", 5), ("logic", 5),
   ("humor", 5), ("assertiveness", 5), ("patience", 5), ("openness", 5)]

/-- Memory-record identifier.  The source builds id strings
`f"{int(time.time()*1000)}_{len(memories)}"` (in `add_interaction`) and
`f"mem_{int(time.time()*1000)}_{len(memories)}"` (in `add_memory`); decimal
renderings contain no underscore, so these formats are injective in the pair
of numbers and the two families never collide.  We model the id as that data. -/
inductive MemId where
  | interaction (timeMs : Nat) (count : Nat)
  | mem (timeMs : Nat) (count : Nat)
deriving DecidableEq

/-- Timestamp of a memory record.  The two record families store timestamps
of different Python types: `add_interaction` stores
`datetime.now().isoformat()` — a string — while `add_memory` stores
`time.time()` — a float.  Within one family the values are totally ordered
chronologically (ISO strings compare lexicographically in time order, floats
numerically), so each constructor carries a chronological key; across
families a Python comparison `str < float` raises `TypeError`. -/
inductive TimeStamp where
  | iso (ms : Nat)
  | epoch (ms : Nat)
deriving DecidableEq

/-- The source's `<=` on two timestamp keys: defined (chronological) within
one family, a raised `TypeError` — modelled as `none` — across families. -/
def TimeStamp.cmpLe : TimeStamp → TimeStamp → Option Bool
  | .iso a, .iso b => some (a ≤ b)
  | .epoch a, .epoch b => some (a ≤ b)
  | _, _ => none

/-- The chronological key within a timestamp's own family. -/
def TimeStamp.key : TimeStamp → Nat
  | .iso t => t
  | .epoch t => t

/-- A memory record as stored in `kairo_state["memories"]`.  Records produced
by `add_interaction` carry `author` and an `iso` timestamp; records produced
by `add_memory` carry `kind` (the Python `type`), `userId` and an `epoch`
timestamp.  Consolidation and truncation read only `id`, `timestamp` and
`importance`. -/
structure MemoryRecord where
  id : MemId
  timestamp : TimeStamp
  content : String
  author : String
  kind : String
  userId : String
  importance : ℚ
deriving DecidableEq

/-- The in-memory `kairo_state` fields that the claims under study read or
mutate.  (`learned_patterns`, `birth_time`, `last_interaction`, `version`,
the user-profile table and the logging bookkeeping are omitted: no claim
mentions them and no modelled operation branches on them.) -/
structure KairoState where
  personality_traits : List (String × ℚ)
  emotional_state : List (String × ℚ)
  memories : List MemoryRecord
  interaction_count : Nat
deriving DecidableEq

/-- The freshly-constructed `StateManager` state (first boot, before any
snapshot is loaded). -/
def initialState : KairoState :=
  { personality_traits := initialTraits
    emotional_state := defaultEmotionalState
    memories := []
    interaction_count := 0 }

/-- Embedding of `StateManager.update_emotional_state(emotion, delta, trigger)`.
Reads the current value with default `0.0`, clamps `old + delta` to
`EMOTION_CONFIG["bounds"] = (0.0, 10.0)`, and writes the clamped value only
when the absolute change exceeds `0.01` (the `>= 0.5` branch differs from the
`> 0.01` branch only in logging, which is not part of the modelled state).
The Python function has no `return` statement, hence returns `None`: the
second component of the result models that returned value. -/
def update_emotional_state (st : KairoState) (emotion : String) (delta : ℚ) :
    KairoState × Option ℚ :=
  let old := getVal st.emotional_state emotion 0
  let clamped := max 0 (min 10 (old + delta))
  let change := |clamped - old|
  if change ≥ 1/2 then
    ({ st with emotional_state := setVal st.emotional_state emotion clamped }, none)
  else if change > 1/100 then
    ({ st with emotional_state := setVal st.emotional_state emotion clamped }, none)
  else
    (st, none)

/-- Embedding of `StateManager.update_personality_trait(trait, delta, reason)`.
Reads with default `5.0`, clamps `old + delta` to
`PERSONALITY_CONFIG["trait_bounds"] = (0.0, 10.0)`, and writes only when the
absolute change exceeds `0.01`.  The Python function returns `None`. -/
def update_personality_trait (st : KairoState) (trait : String) (delta : ℚ) :
    KairoState :=
  let old := getVal st.personality_traits trait 5
  let clamped := max 0 (min 10 (old + delta))
  if |clamped - old| > 1/100 then
    { st with personality_traits := setVal st.personality_traits trait clamped }
  else
    st

/-- Embedding of `MEMORY_CONFIG["importance_threshold"]` from `config.py`. -/
def importanceThreshold : ℚ := 7/10

/-- Embedding of `MEMORY_CONFIG["max_conversation_history"]` from `config.py`. -/
def maxConversationHistory : Nat := 1000

/-- Embedding of `MEMORY_CONFIG.get("max_memories", 1000)`: the key is absent from
`MEMORY_CONFIG`, so `add_memory` uses the default `1000`. -/
def maxMemories : Nat := 1000

/-- Embedding of `StateManager._calculate_importance(content, author)`: base `0.5`, plus
`0.2` for contents longer than 100 characters, `0.3` if any
learning/gratitude keyword occurs in the lowercased content, `0.1` if the
author is `"user"`, `0.2` if a question mark occurs, `0.3` if any emotional
keyword occurs, capped at `1.0`. -/
def calculate_importance (content : String) (author : String) : ℚ :=
  let lower := strLower content
  let imp : ℚ := 1/2
  let imp := if content.length > 100 then imp + 1/5 else imp
  let imp := if ["aprendi", "entendi", "interessante", "obrigado"].any
      (fun w => strContains lower w) then imp + 3/10 else imp
  let imp := if author == "user" then imp + 1/10 else imp
  let imp := if strContains content "?" then imp + 1/5 else imp
  let imp := if ["amo", "odeio", "feliz", "triste", "raiva", "medo"].any
      (fun w => strContains lower w) then imp + 3/10 else imp
  min 1 imp

/-- The `seen_ids` loop of `StateManager._consolidate_memories`: keep the
first record for each id, in input order (`seen` is the set of ids already
kept, modelled as a list whose order is irrelevant to membership). -/
def dedupById : List MemoryRecord → List MemId → List MemoryRecord
  | [], _ => []
  | m :: ms, seen =>
    if m.id ∈ seen then dedupById ms seen
    else m :: dedupById ms (m.id :: seen)

/-- Python `l[-n:]`: the `n` most recent elements (the whole list when it is
shorter than `n`). -/
def lastN (n : Nat) (l : List α) : List α := l.drop (l.length - n)

/-- Whether two records' timestamps can be compared without raising: true
within one family, false across the `iso`/`epoch` families. -/
def comparableTS (a b : MemoryRecord) : Bool :=
  (a.timestamp.cmpLe b.timestamp).isSome

/-- Pairwise comparability of a collection's timestamps.  CPython's
`list.sort` on keys drawn from two mutually incomparable total orders raises
`TypeError` exactly when both families occur (a correct comparison sort must
compare some string key with some float key once both are present, and every
such comparison raises); with pairwise-comparable keys it completes as a
stable sort. -/
def allComparable : List MemoryRecord → Bool
  | [] => true
  | m :: ms => ms.all (comparableTS m) && allComparable ms

/-- Embedding of `StateManager._consolidate_memories` applied to a memory list: keep the
records with importance at or above the threshold together with the 100 most
recent records, deduplicated by id keeping first occurrence, then sorted by
timestamp with Python's stable `list.sort`.  The sort completes only when all
retained timestamps are mutually comparable (one record family); it then
orders by the family's chronological key (`List.mergeSort` is likewise
stable).  On a collection mixing `add_interaction` string timestamps with
`add_memory` float timestamps the sort raises `TypeError`, modelled as
`none`: no resulting collection is produced and the stored list is never
replaced. -/
def consolidate_memories (mems : List MemoryRecord) :
    Option (List MemoryRecord) :=
  let important := mems.filter (fun m => m.importance ≥ importanceThreshold)
  let recent := lastN 100 mems
  let consolidated := dedupById (important ++ recent) []
  if allComparable consolidated then
    some (consolidated.mergeSort
      (fun a b => a.timestamp.key ≤ b.timestamp.key))
  else none

/-- Embedding of `StateManager.add_interaction(author, content, metadata)`: builds a record
with id `f"{int(time.time()*1000)}_{len(memories)}"`, ISO timestamp, computed
importance; appends it, increments `interaction_count`, and consolidates when
the collection exceeds `max_conversation_history`.  Returns the new record.
(The `important_memories` cache and `last_interaction` field are logging /
prompt conveniences not read by any modelled operation and are omitted.)
`nowMs` is the current clock reading in milliseconds. -/
def addInteractionRecord (st : KairoState) (author content : String)
    (nowMs : Nat) : MemoryRecord :=
  { id := .interaction nowMs st.memories.length
    timestamp := .iso nowMs
    content := content
    author := author
    kind := ""
    userId := ""
    importance := calculate_importance content author }

/-- The collection effect of `StateManager.add_interaction` (see
`addInteractionRecord` for the record construction).  The record is appended
and `interaction_count` incremented before the cap check, as in the source;
when consolidation is triggered and completes, the collection is replaced by
its result and the record is returned (`some`); when consolidation raises
`TypeError` (mixed timestamp families) the appended, un-truncated collection
is left in place and the exception propagates to the caller (`none`). -/
def add_interaction (st : KairoState) (author content : String) (nowMs : Nat) :
    KairoState × Option MemoryRecord :=
  let record := addInteractionRecord st author content nowMs
  let mems := st.memories ++ [record]
  if mems.length > maxConversationHistory then
    match consolidate_memories mems with
    | some consolidated =>
      ({ st with memories := consolidated, interaction_count := st.interaction_count + 1 }, some record)
    | none =>
      ({ st with memories := mems, interaction_count := st.interaction_count + 1 }, none)
  else
    ({ st with memories := mems, interaction_count := st.interaction_count + 1 }, some record)

/-- Embedding of `StateManager.add_memory(content, memory_type, user_id)`: computes
importance (note the Python passes `memory_type` as the `author` argument of
`_calculate_importance`), appends a record with id
`f"mem_{int(time.time()*1000)}_{len(memories)}"` and epoch timestamp, and then
truncates the collection to the most recent `max_memories` records when it
exceeds that cap.  Returns the new record's id.  (The regex-based
`_extract_important_info` result and the user-profile write it may trigger
touch only the profile table, which no claim reads; the stored
`extracted_info` field is never read back by any modelled operation.)
`addMemoryRecord` is the record that `add_memory` constructs and appends. -/
def addMemoryRecord (st : KairoState) (content memoryType userId : String)
    (nowMs : Nat) : MemoryRecord :=
  { id := .mem nowMs st.memories.length
    timestamp := .epoch nowMs
    content := content
    author := ""
    kind := memoryType
    userId := userId
    importance := calculate_importance content memoryType }

/-- The collection effect and return value of `StateManager.add_memory`
(see `addMemoryRecord` for the record construction). -/
def add_memory (st : KairoState) (content memoryType userId : String)
    (nowMs : Nat) : KairoState × MemId :=
  let record := addMemoryRecord st content memoryType userId nowMs
  let mems := st.memories ++ [record]
  let mems := if mems.length > maxMemories then lastN maxMemories mems else mems
  ({ st with memories := mems }, record.id)

/-- Embedding of `EmotionEngine.emotional_constraints`: directed
(source, target, inhibition factor) triples. -/
def emotionalConstraints : List (String × String × ℚ) :=
  [("joy", "sadness", 7/10), ("sadness", "joy", 1/2),
   ("anger", "fear", 3/10), ("fear", "anger", 3/10),
   ("surprise", "sadness", 2/5), ("interest", "anger", 1/5)]

/-- Embedding of `EmotionEngine._apply_emotional_constraints(triggered_emotions)`: takes a
snapshot of the emotional state, then for each constraint triple whose source
appears in `triggered` with a positive delta and whose target had a positive
snapshot value, reduces the target by `sourceDelta × factor` through
`StateManager.update_emotional_state`.  The snapshot is read once before the
loop while the updates land on the live state, exactly as in the source.
(`triggered` models the Python dict of adjustments: keys are unique, lookup
is modelled by first match.) -/
def apply_emotional_constraints (st : KairoState)
    (triggered : List (String × ℚ)) : KairoState :=
  let snapshot := st.emotional_state
  emotionalConstraints.foldl (fun acc c =>
    match triggered.find? (fun p => p.1 == c.1) with
    | some p =>
      if p.2 > 0 then
        if getVal snapshot c.2.1 0 > 0 then
          (update_emotional_state acc c.2.1 (-(p.2 * c.2.2))).1
        else acc
      else acc
    | none => acc) st

/-- Embedding of `EmotionEngine._apply_emotion_adjustments(adjustments, reason)`: applies
each adjustment whose emotion belongs to the configured emotion list via
`StateManager.update_emotional_state`, then runs the constraint pass.
`EmotionEngine.analyze_text` funnels every state effect it has through this
function (with the adjustments it computed from the text), so bound
preservation for arbitrary adjustment lists covers all text analyses. -/
def apply_emotion_adjustments (st : KairoState)
    (adjustments : List (String × ℚ)) : KairoState :=
  let st := adjustments.foldl (fun acc p =>
    if p.1 ∈ emotionsList then (update_emotional_state acc p.1 p.2).1
    else acc) st
  apply_emotional_constraints st adjustments

/-- Embedding of `EmotionEngine.trigger_emotion(emotion, intensity, reason)`: returns
early (a no-op, Python `return` of `None`) when the name is not in the
configured emotion list, otherwise applies the single adjustment through
`_apply_emotion_adjustments`. -/
def trigger_emotion (st : KairoState) (emotion : String) (intensity : ℚ) :
    KairoState :=
  if emotion ∈ emotionsList then
    apply_emotion_adjustments st [(emotion, intensity)]
  else st

/-- The per-emotion decay computation of
`EmotionEngine._apply_emotional_decay`: `joy` and `interest` relax toward the
baseline `5.0` (from either side), the remaining emotions decay toward `0.0`;
`none` models the `continue` branches (value already at its rest point). -/
def decayTarget (e : String) (v : ℚ) (dt : ℚ) : Option ℚ :=
  if e ∈ ["joy", "interest"] then
    if v > 5 then some (max 5 (v - decayRate e * dt))
    else if v < 5 then some (min 5 (v + decayRate e * dt))
    else none
  else
    if v > 0 then some (max 0 (v - decayRate e * dt))
    else none

/-- The per-emotion loop body of `EmotionEngine._apply_emotional_decay`:
reads the emotion's value from the snapshot taken before the loop, computes
the decay target and applies the delta through
`StateManager.update_emotional_state` only when the change exceeds `0.01`. -/
def decayStep (snapshot : List (String × ℚ)) (dt : ℚ) (acc : KairoState)
    (e : String) : KairoState :=
  let v := getVal snapshot e 0
  match decayTarget e v dt with
  | none => acc
  | some nv =>
    if |nv - v| > 1/100 then (update_emotional_state acc e (nv - v)).1
    else acc

/-- Embedding of `EmotionEngine._apply_emotional_decay(time_delta_minutes)`: reads a
snapshot once, then runs the per-emotion loop over the canonical emotion
list, as in the source. -/
def apply_emotional_decay (st : KairoState) (dt : ℚ) : KairoState :=
  emotionsList.foldl (decayStep st.emotional_state dt) st

/-- The baseline each emotion decays toward: `5.0` for the positive /
neutral-seeking emotions `joy` and `interest`, `0.0` for the reactive
emotions (the two branches of `_apply_emotional_decay`). -/
def decayBaseline (e : String) : ℚ :=
  if e ∈ ["joy", "interest"] then 5 else 0

/-- The stored value an emotion ends up with after one decay tick: the decay
target when the change is significant (`> 0.01`), the unchanged value
otherwise. -/
def decayResult (e : String) (v dt : ℚ) : ℚ :=
  match decayTarget e v dt with
  | none => v
  | some nv => if |nv - v| > 1/100 then nv else v

/-- Embedding of `IdleProcessor.idle_threshold` (seconds). -/
def idleThreshold : ℚ := 300

/-- Embedding of `IdleProcessor.max_idle_actions`. -/
def maxIdleActions : Nat := 3

/-- The `IdleProcessor` fields consulted by the idle state machine:
`last_interaction_time` and `current_idle_actions`.  (The statistics
dictionary only aggregates counters and is never read by a control-flow
decision.) -/
structure IdleState where
  lastInteractionTime : ℚ
  currentIdleActions : Nat
deriving DecidableEq

/-- Embedding of `IdleProcessor.update_interaction_time()`: stamps the current time and
resets the per-period action counter to zero. -/
def update_interaction_time (_st : IdleState) (now : ℚ) : IdleState :=
  { lastInteractionTime := now, currentIdleActions := 0 }

/-- Embedding of `IdleProcessor._process_idle_period(idle_duration)`: returns immediately
when the per-period cap is reached; otherwise fires the selected activity
(the weighted-random selection outcome is the `selected` argument, the
delegate execution outcome is `execSuccess`) and increments the counter only
on success.  The returned flag is true exactly when an activity fired
(successful execution, the branch that logs `idle_activity`). -/
def process_idle_period (st : IdleState) (selected : Option String)
    (execSuccess : Bool) : IdleState × Bool :=
  if st.currentIdleActions ≥ maxIdleActions then (st, false)
  else
    match selected with
    | none => (st, false)
    | some _ =>
      if execSuccess then
        ({ st with currentIdleActions := st.currentIdleActions + 1 }, true)
      else (st, false)

/-- One wake-up of `IdleProcessor._idle_loop`: when the idle duration has
reached the threshold the tick processes the idle period, otherwise nothing
happens. -/
def idle_check_tick (st : IdleState) (now : ℚ) (selected : Option String)
    (execSuccess : Bool) : IdleState × Bool :=
  if now - st.lastInteractionTime ≥ idleThreshold then
    process_idle_period st selected execSuccess
  else (st, false)

/-- A sequence of idle-loop wake-ups with no intervening interaction; returns
the final state and the number of activities fired over the run. -/
def run_idle_ticks : IdleState → List (ℚ × Option String × Bool) →
    IdleState × Nat
  | st, [] => (st, 0)
  | st, t :: rest =>
    let r := idle_check_tick st t.1 t.2.1 t.2.2
    let rec' := run_idle_ticks r.1 rest
    (rec'.1, (if r.2 then 1 else 0) + rec'.2)

/-- Embedding of `IdleProcessor.idle_activities` base weights, in dict insertion order
(the canonical scan order of the selection loop). -/
def idleActivitiesBase : List (String × ℚ) :=
  [("reflection", 30), ("curiosity", 25), ("emotional_processing", 20),
   ("learning_consolidation", 15), ("proactive_engagement", 10)]

/-- The accumulation loop of `IdleProcessor._select_idle_activity`: scan the
weighted kinds in order, accumulating weight, and return the first kind whose
cumulative weight reaches the draw (`rand_value <= current_weight`). -/
def select_scan : List (String × ℚ) → ℚ → ℚ → Option String
  | [], _, _ => none
  | (a, w) :: rest, r, cum =>
    let c := cum + w
    if r ≤ c then some a else select_scan rest r c

/-- Embedding of `IdleProcessor._select_idle_activity` given the boosted weight table `ws`
(base weight times the trigger multiplier, computed before the draw) and the
uniform draw `r`: `None` when the table is empty or its total weight is not
positive, otherwise the scan result, with the source's fallback to the first
key should the scan run off the end. -/
def select_idle_activity (ws : List (String × ℚ)) (r : ℚ) : Option String :=
  if ws.isEmpty then none
  else
    let total := (ws.map Prod.snd).sum
    if total ≤ 0 then none
    else
      match select_scan ws r 0 with
      | some a => some a
      | none => ws.head?.map Prod.fst

/-- Modelled from the spec's words (for comparison with the source's
`select_scan`): "selects the first kind whose cumulative weight exceeds the
draw", i.e. the strict comparison `draw < cumulative`. -/
def select_scan_specRule : List (String × ℚ) → ℚ → ℚ → Option String
  | [], _, _ => none
  | (a, w) :: rest, r, cum =>
    let c := cum + w
    if r < c then some a else select_scan_specRule rest r c

/-- The selection described by the spec sentence, differing from the source
only in using the strict scan rule. -/
def select_by_spec_rule (ws : List (String × ℚ)) (r : ℚ) : Option String :=
  if ws.isEmpty then none
  else
    let total := (ws.map Prod.snd).sum
    if total ≤ 0 then none
    else
      match select_scan_specRule ws r 0 with
      | some a => some a
      | none => ws.head?.map Prod.fst

/-- Lock-discipline events of a `StateManager` method body, in program
order: guard acquisition/release (`with self.lock`), pure in-memory work, and
file-system I/O. -/
inductive StoreEvent where
  | acquire
  | release
  | memOp
  | ioOp
deriving DecidableEq

/-- Event trace of `StateManager.save_state`: the `with self.lock` block
contains, in order, the backup rename, the pruning of old backups, and the
`json.dump` write of the snapshot file — all file I/O performed while the
guard is held. -/
def save_state_events : List StoreEvent :=
  [.acquire, .ioOp, .ioOp, .ioOp, .release]

/-- Event trace of `StateManager.update_emotional_state`: the guard wraps
pure in-memory clamping and writing. -/
def update_emotional_state_events : List StoreEvent :=
  [.acquire, .memOp, .release]

/-- Event trace of `StateManager.update_personality_trait`. -/
def update_personality_trait_events : List StoreEvent :=
  [.acquire, .memOp, .release]

/-- Event trace of `StateManager.add_interaction`: append and consolidation
are in-memory, under the guard. -/
def add_interaction_events : List StoreEvent :=
  [.acquire, .memOp, .release]

/-- Event trace of `StateManager.add_memory` on the path where
`_extract_important_info` found profile facts: the profile update calls
`save_user_profile`, a file write, inside the `with self.lock` block. -/
def add_memory_events : List StoreEvent :=
  [.acquire, .memOp, .ioOp, .release]

/-- Event trace of `StateManager.get_emotional_state`: returns a copy of the
dict without acquiring the guard. -/
def get_emotional_state_events : List StoreEvent :=
  [.memOp]

/-- Event trace of `StateManager.get_recent_memories`: a list slice, no
guard. -/
def get_recent_memories_events : List StoreEvent :=
  [.memOp]

/-- Whether a method body ever acquires the mutual-exclusion guard. -/
def acquiresGuard (evs : List StoreEvent) : Bool :=
  evs.contains .acquire

/-- Helper for `ioWhileHeld`: scans the trace tracking whether the guard is
currently held. -/
def ioWhileHeldAux : List StoreEvent → Bool → Bool
  | [], _ => false
  | .acquire :: rest, _ => ioWhileHeldAux rest true
  | .release :: rest, _ => ioWhileHeldAux rest false
  | .ioOp :: rest, held => held || ioWhileHeldAux rest held
  | .memOp :: rest, held => ioWhileHeldAux rest held

/-- Whether the method performs file I/O at a point where the guard is
held. -/
def ioWhileHeld (evs : List StoreEvent) : Bool :=
  ioWhileHeldAux evs false

/-- The record produced by the `(i+1)`-st call of the scenario run
`iterAdds`: added at clock reading `i+1` ms when `i` memories were stored.
Its importance is `calculate_importance "oi?" "user" = 0.8`, which is at or
above the importance threshold `0.7`. -/
def interactionRecordAt (i : Nat) : MemoryRecord :=
  { id := .interaction (i + 1) i
    timestamp := .iso (i + 1)
    content := "oi?"
    author := "user"
    kind := ""
    userId := ""
    importance := calculate_importance "oi?" "user" }

/-- A run of `n` successive `add_interaction("user", "oi?")` calls starting from the
initial state, the `k`-th at clock reading `k` ms: a reachable state of the
store. -/
def iterAdds : Nat → KairoState
  | 0 => initialState
  | n + 1 => (add_interaction (iterAdds n) "user" "oi?" (n + 1)).1

/-- A sub-threshold record used as filler in the `add_memory` truncation
counterexample. -/
def fillerRecord : MemoryRecord :=
  { id := .mem 1 1, timestamp := .epoch 1, content := "", author := "", kind := "",
    userId := "", importance := 1/2 }

/-- An above-threshold record sitting at the oldest position of a full
memory collection. -/
def importantRecord : MemoryRecord :=
  { id := .mem 0 0, timestamp := .epoch 0, content := "", author := "", kind := "",
    userId := "", importance := 4/5 }

/-- A store holding exactly `maxMemories` records whose oldest record is
above the importance threshold. -/
def c3State : KairoState :=
  { initialState with
      memories := importantRecord :: List.replicate 999 fillerRecord }

/-- A store whose `joy` value sits `0.005` above its baseline: in bounds, yet
close enough to the baseline that one decay tick's change is below the
significance cutoff. -/
def c6State : KairoState :=
  { initialState with
      emotional_state :=
        [("joy", 5 + 1/200), ("sadness", 0), ("anger", 0), ("fear", 0),
         ("surprise", 0), ("interest", 5)] }

/-- A small concrete memory collection with distinct ids, out-of-order
single-family timestamps and above-threshold importances, used to
instantiate the consolidation characterization. -/
def c5Memories : List MemoryRecord :=
  [ { id := .interaction 10 0, timestamp := .iso 10, content := "a", author := "user",
      kind := "", userId := "", importance := 4/5 },
    { id := .interaction 7 1, timestamp := .iso 7, content := "b", author := "kairo",
      kind := "", userId := "", importance := 4/5 },
    { id := .interaction 9 2, timestamp := .iso 9, content := "c", author := "user",
      kind := "", userId := "", importance := 4/5 } ]

/-- An important record of the `add_interaction` family (ISO-string
timestamp), the oldest element of the mixed collection below. -/
def mixedIsoRecord : MemoryRecord :=
  { id := .interaction 0 0, timestamp := .iso 0, content := "", author := "user",
    kind := "", userId := "", importance := 4/5 }

/-- A sub-threshold record of the `add_memory` family (epoch-float
timestamp). -/
def mixedEpochFiller : MemoryRecord :=
  { id := .mem 1 1, timestamp := .epoch 1, content := "", author := "",
    kind := "", userId := "", importance := 1/2 }

/-- An over-cap collection mixing the two record families, the shape normal
operation produces once both `add_interaction` and `add_memory` have run:
its consolidation must compare an ISO-string timestamp with an epoch-float
one and raises `TypeError`. -/
def mixedMemories : List MemoryRecord :=
  mixedIsoRecord :: List.replicate 1000 mixedEpochFiller

/-! ### Helper lemmas about the association-list primitives -/

theorem getVal_nil (k : String) (d : ℚ) : getVal [] k d = d := rfl

theorem getVal_cons (p : String × ℚ) (m : List (String × ℚ)) (k : String)
    (d : ℚ) : getVal (p :: m) k d = if p.1 = k then p.2 else getVal m k d := by
  by_cases h : p.1 = k
  · simp [getVal, List.find?, h]
  · have hb : (p.1 == k) = false := by simp [h]
    simp [getVal, List.find?, hb, h]

theorem getVal_setVal_self (m : List (String × ℚ)) (k : String) (v d : ℚ) :
    getVal (setVal m k v) k d = v := by
  induction m with
  | nil => simp [setVal, getVal_cons]
  | cons p m ih =>
    by_cases h : p.1 = k
    · simp [setVal, h, getVal_cons]
    · simp [setVal, h, getVal_cons, ih]

theorem getVal_setVal_ne (m : List (String × ℚ)) {k k' : String} (v d : ℚ)
    (h : k' ≠ k) : getVal (setVal m k v) k' d = getVal m k' d := by
  induction m with
  | nil => simp [setVal, getVal_cons, getVal_nil, Ne.symm h]
  | cons p m ih =>
    by_cases hp : p.1 = k
    · rw [setVal]
      simp only [beq_iff_eq, hp, if_true]
      rw [getVal_cons, getVal_cons]
      simp [hp, Ne.symm h]
    · rw [setVal]
      simp only [beq_iff_eq, hp, if_false]
      rw [getVal_cons, getVal_cons, ih]

theorem setVal_mem {m : List (String × ℚ)} {k : String} {v : ℚ}
    {q : String × ℚ} (hq : q ∈ setVal m k v) : q = (k, v) ∨ q ∈ m := by
  induction m with
  | nil => simpa [setVal] using hq
  | cons p m ih =>
    by_cases hp : p.1 = k
    · simp only [setVal, beq_iff_eq, hp, if_true] at hq
      rcases List.mem_cons.1 hq with h | h
      · exact Or.inl h
      · exact Or.inr (List.mem_cons_of_mem _ h)
    · simp only [setVal, beq_iff_eq, hp, if_false] at hq
      rcases List.mem_cons.1 hq with h | h
      · exact Or.inr (h ▸ List.mem_cons_self _ _)
      · rcases ih h with h' | h'
        · exact Or.inl h'
        · exact Or.inr (List.mem_cons_of_mem _ h')

theorem getVal_prop {P : ℚ → Prop} {m : List (String × ℚ)} {k : String}
    {d : ℚ} (hm : ∀ p ∈ m, P p.2) (hd : P d) : P (getVal m k d) := by
  unfold getVal
  cases hfind : m.find? (fun p => p.1 == k) with
  | none => exact hd
  | some p => exact hm p (List.mem_of_find?_eq_some hfind)

/-- The clamp used by both store updates lands in `[0, 10]`. -/
theorem clamp_bounds (x : ℚ) : 0 ≤ max 0 (min 10 x) ∧ max 0 (min 10 x) ≤ 10 :=
  ⟨le_max_left 0 _, max_le (by norm_num) (min_le_left 10 x)⟩

/-- All stored numeric values of a vector lie in `[0, 10]`. -/
def ValsInBounds (m : List (String × ℚ)) : Prop :=
  ∀ p ∈ m, 0 ≤ p.2 ∧ p.2 ≤ 10

/-- Both bounded vectors of the store are within their configured bounds
(emotions: `EMOTION_CONFIG["bounds"]`, traits:
`PERSONALITY_CONFIG["trait_bounds"]`, both `(0.0, 10.0)`). -/
def StateInBounds (st : KairoState) : Prop :=
  ValsInBounds st.emotional_state ∧ ValsInBounds st.personality_traits

theorem valsInBounds_setVal {m : List (String × ℚ)} {k : String} {v : ℚ}
    (hm : ValsInBounds m) (hv : 0 ≤ v ∧ v ≤ 10) :
    ValsInBounds (setVal m k v) := by
  intro q hq
  rcases setVal_mem hq with h | h
  · simpa [h] using hv
  · exact hm q h

/-- Case analysis of `update_emotional_state`: either nothing changes, or the
emotional vector gets the clamped value written at the emotion's key; traits
are untouched and the returned value is always `none`. -/
theorem update_emotional_state_cases (st : KairoState) (e : String) (δ : ℚ) :
    ((update_emotional_state st e δ).1 = st ∨
      (update_emotional_state st e δ).1 =
        { st with emotional_state := setVal st.emotional_state e (max 0 (min 10 (getVal st.emotional_state e 0 + δ))) }) ∧
    (update_emotional_state st e δ).2 = none := by
  simp only [update_emotional_state]
  split
  · exact ⟨Or.inr rfl, rfl⟩
  · split
    · exact ⟨Or.inr rfl, rfl⟩
    · exact ⟨Or.inl rfl, rfl⟩

theorem update_emotional_state_significant (st : KairoState) (e : String)
    (δ : ℚ)
    (h : |max 0 (min 10 (getVal st.emotional_state e 0 + δ)) -
        getVal st.emotional_state e 0| > 1/100) :
    (update_emotional_state st e δ).1 =
      { st with emotional_state := setVal st.emotional_state e (max 0 (min 10 (getVal st.emotional_state e 0 + δ))) } := by
  simp only [update_emotional_state]
  split
  · rfl
  · rfl

theorem update_emotional_state_insignificant (st : KairoState) (e : String)
    (δ : ℚ)
    (h : |max 0 (min 10 (getVal st.emotional_state e 0 + δ)) -
        getVal st.emotional_state e 0| ≤ 1/100) :
    (update_emotional_state st e δ).1 = st := by
  have hc2 : ¬(|max 0 (min 10 (getVal st.emotional_state e 0 + δ)) -
      getVal st.emotional_state e 0| > 1/100) := not_lt.2 h
  have hc : ¬(|max 0 (min 10 (getVal st.emotional_state e 0 + δ)) -
      getVal st.emotional_state e 0| ≥ 1/2) :=
    fun hge => hc2 (lt_of_lt_of_le (by norm_num) hge)
  simp only [update_emotional_state]
  split
  · next hge => exact absurd hge hc
  · rfl

theorem update_emotional_state_getVal_ne (st : KairoState) {e e' : String}
    (δ d : ℚ) (h : e' ≠ e) :
    getVal (update_emotional_state st e δ).1.emotional_state e' d =
      getVal st.emotional_state e' d := by
  rcases (update_emotional_state_cases st e δ).1 with hc | hc
  · rw [hc]
  · rw [hc]; exact getVal_setVal_ne _ _ _ h

theorem update_emotional_state_preserves (st : KairoState) (e : String)
    (δ : ℚ) (hb : StateInBounds st) :
    StateInBounds (update_emotional_state st e δ).1 := by
  rcases (update_emotional_state_cases st e δ).1 with h | h
  · rw [h]; exact hb
  · rw [h]; exact ⟨valsInBounds_setVal hb.1 (clamp_bounds _), hb.2⟩

theorem update_personality_trait_cases (st : KairoState) (t : String) (δ : ℚ) :
    update_personality_trait st t δ = st ∨
      update_personality_trait st t δ =
        { st with personality_traits := setVal st.personality_traits t (max 0 (min 10 (getVal st.personality_traits t 5 + δ))) } := by
  simp only [update_personality_trait]
  split
  · exact Or.inr rfl
  · exact Or.inl rfl

theorem update_personality_trait_preserves (st : KairoState) (t : String)
    (δ : ℚ) (hb : StateInBounds st) :
    StateInBounds (update_personality_trait st t δ) := by
  rcases update_personality_trait_cases st t δ with h | h
  · rw [h]; exact hb
  · rw [h]; exact ⟨hb.1, valsInBounds_setVal hb.2 (clamp_bounds _)⟩

theorem foldl_preserves {α β : Type _} {P : α → Prop} {f : α → β → α}
    (h : ∀ a b, P a → P (f a b)) :
    ∀ (l : List β) (a : α), P a → P (l.foldl f a)
  | [], _, ha => ha
  | b :: l, a, ha => foldl_preserves h l (f a b) (h a b ha)

theorem apply_emotional_constraints_preserves (st : KairoState)
    (triggered : List (String × ℚ)) (hb : StateInBounds st) :
    StateInBounds (apply_emotional_constraints st triggered) := by
  unfold apply_emotional_constraints
  refine foldl_preserves (fun acc c hacc => ?_) _ _ hb
  cases hf : triggered.find? (fun p => p.1 == c.1) with
  | none => simpa [hf] using hacc
  | some p =>
    simp only [hf]
    split
    · split
      · exact update_emotional_state_preserves _ _ _ hacc
      · exact hacc
    · exact hacc

theorem apply_emotion_adjustments_preserves (st : KairoState)
    (adjustments : List (String × ℚ)) (hb : StateInBounds st) :
    StateInBounds (apply_emotion_adjustments st adjustments) := by
  simp only [apply_emotion_adjustments]
  refine apply_emotional_constraints_preserves _ _ ?_
  refine foldl_preserves (fun acc p hacc => ?_) _ _ hb
  split
  · exact update_emotional_state_preserves _ _ _ hacc
  · exact hacc

theorem decayStep_preserves (snapshot : List (String × ℚ)) (dt : ℚ)
    (acc : KairoState) (e : String) (hb : StateInBounds acc) :
    StateInBounds (decayStep snapshot dt acc e) := by
  simp only [decayStep]
  split
  all_goals try split
  all_goals first
    | exact hb
    | exact update_emotional_state_preserves _ _ _ hb

theorem apply_emotional_decay_preserves (st : KairoState) (dt : ℚ)
    (hb : StateInBounds st) : StateInBounds (apply_emotional_decay st dt) := by
  unfold apply_emotional_decay
  exact foldl_preserves (fun acc e hacc => decayStep_preserves _ _ _ _ hacc)
    _ _ hb

theorem decayRate_nonneg (e : String) : 0 ≤ decayRate e := by
  unfold decayRate
  refine getVal_prop (P := fun x => 0 ≤ x) ?_ (by norm_num)
  intro p hp
  fin_cases hp <;> norm_num

theorem getVal_bounds {m : List (String × ℚ)} (hm : ValsInBounds m)
    (k : String) : 0 ≤ getVal m k 0 ∧ getVal m k 0 ≤ 10 :=
  getVal_prop (P := fun x => 0 ≤ x ∧ x ≤ 10) hm ⟨le_refl 0, by norm_num⟩

theorem decayTarget_some_bounds {e : String} {v dt nv : ℚ}
    (h : decayTarget e v dt = some nv) (hdt : 0 ≤ dt) (h0 : 0 ≤ v)
    (h10 : v ≤ 10) : 0 ≤ nv ∧ nv ≤ 10 := by
  have hr : 0 ≤ decayRate e * dt := mul_nonneg (decayRate_nonneg e) hdt
  unfold decayTarget at h
  split at h
  · split at h
    · injection h with h'
      subst h'
      exact ⟨le_trans (by norm_num) (le_max_left _ _),
        max_le (by norm_num) (by linarith)⟩
    · split at h
      · injection h with h'
        subst h'
        exact ⟨le_min (by norm_num) (by linarith),
          le_trans (min_le_left _ _) (by norm_num)⟩
      · cases h
  · split at h
    · injection h with h'
      subst h'
      exact ⟨le_max_left _ _, max_le (by norm_num) (by linarith)⟩
    · cases h

theorem decayResult_toward_baseline (e : String) (v dt : ℚ) (hdt : 0 ≤ dt) :
    (decayBaseline e ≤ v →
      decayBaseline e ≤ decayResult e v dt ∧ decayResult e v dt ≤ v) ∧
    (v ≤ decayBaseline e →
      v ≤ decayResult e v dt ∧ decayBaseline e ≥ decayResult e v dt) := by
  have hr : 0 ≤ decayRate e * dt := mul_nonneg (decayRate_nonneg e) hdt
  by_cases hmem : e ∈ ["joy", "interest"]
  · have hb : decayBaseline e = 5 := by simp [decayBaseline, hmem]
    rw [hb]
    by_cases hv5 : v > 5
    · have ht : decayTarget e v dt = some (max 5 (v - decayRate e * dt)) := by
        simp [decayTarget, hmem, hv5]
      simp only [decayResult, ht]
      constructor
      · intro _
        split
        · exact ⟨le_max_left _ _, max_le (by linarith) (by linarith)⟩
        · exact ⟨by linarith, le_refl v⟩
      · intro hle; linarith
    · by_cases hv5' : v < 5
      · have ht : decayTarget e v dt = some (min 5 (v + decayRate e * dt)) := by
          simp [decayTarget, hmem, hv5, hv5']
        simp only [decayResult, ht]
        constructor
        · intro hge; linarith
        · intro _
          split
          · exact ⟨le_min (by linarith) (by linarith), min_le_left _ _⟩
          · exact ⟨le_refl v, by linarith⟩
      · have ht : decayTarget e v dt = none := by
          simp [decayTarget, hmem, hv5, hv5']
        simp only [decayResult, ht]
        exact ⟨fun h => ⟨h, le_refl v⟩, fun h => ⟨le_refl v, h⟩⟩
  · have hb : decayBaseline e = 0 := by simp [decayBaseline, hmem]
    rw [hb]
    by_cases hv0 : v > 0
    · have ht : decayTarget e v dt = some (max 0 (v - decayRate e * dt)) := by
        simp [decayTarget, hmem, hv0]
      simp only [decayResult, ht]
      constructor
      · intro _
        split
        · exact ⟨le_max_left _ _, max_le (by linarith) (by linarith)⟩
        · exact ⟨by linarith, le_refl v⟩
      · intro hle; linarith
    · have ht : decayTarget e v dt = none := by
        simp [decayTarget, hmem, hv0]
      simp only [decayResult, ht]
      exact ⟨fun h => ⟨h, le_refl v⟩, fun h => ⟨le_refl v, h⟩⟩

theorem decayStep_getVal_ne (snapshot : List (String × ℚ)) (dt : ℚ)
    (acc : KairoState) (e : String) {e' : String} (d : ℚ) (h : e' ≠ e) :
    getVal (decayStep snapshot dt acc e).emotional_state e' d =
      getVal acc.emotional_state e' d := by
  simp only [decayStep]
  split
  all_goals try split
  all_goals first
    | rfl
    | exact update_emotional_state_getVal_ne _ _ _ h

theorem decayStep_getVal_self (snapshot : List (String × ℚ)) (dt : ℚ)
    (acc : KairoState) (e : String)
    (hv : getVal acc.emotional_state e 0 = getVal snapshot e 0)
    (h0 : 0 ≤ getVal snapshot e 0) (h10 : getVal snapshot e 0 ≤ 10)
    (hdt : 0 ≤ dt) :
    getVal (decayStep snapshot dt acc e).emotional_state e 0
      = decayResult e (getVal snapshot e 0) dt := by
  simp only [decayStep, decayResult]
  cases ht : decayTarget e (getVal snapshot e 0) dt with
  | none => exact hv
  | some nv =>
    have hbnd := decayTarget_some_bounds ht hdt h0 h10
    by_cases hsig : |nv - getVal snapshot e 0| > 1/100
    · simp only [if_pos hsig]
      have hclamp : max 0 (min 10 (getVal acc.emotional_state e 0 +
          (nv - getVal snapshot e 0))) = nv := by
        rw [hv]
        have harith : getVal snapshot e 0 + (nv - getVal snapshot e 0) = nv := by
          ring
        rw [harith, min_eq_right hbnd.2, max_eq_right hbnd.1]
      have hupd := update_emotional_state_significant acc e
        (nv - getVal snapshot e 0) (by rw [hclamp, hv]; exact hsig)
      rw [hupd, hclamp]
      exact getVal_setVal_self acc.emotional_state e nv 0
    · simp only [if_neg hsig]
      exact hv

theorem decay_fold_untouched (snapshot : List (String × ℚ)) (dt : ℚ) :
    ∀ (L : List String) (acc : KairoState) (e' : String) (d : ℚ), e' ∉ L →
      getVal ((L.foldl (decayStep snapshot dt) acc)).emotional_state e' d =
        getVal acc.emotional_state e' d
  | [], _, _, _, _ => rfl
  | a :: L, acc, e', d, h => by
    have h1 : e' ≠ a := fun he => h (he ▸ List.mem_cons_self a L)
    have h2 : e' ∉ L := fun he => h (List.mem_cons_of_mem _ he)
    rw [List.foldl_cons, decay_fold_untouched snapshot dt L _ _ _ h2,
      decayStep_getVal_ne _ _ _ _ _ h1]

theorem decay_fold_eval (snapshot : List (String × ℚ)) (dt : ℚ)
    (hdt : 0 ≤ dt) (hsb : ∀ p ∈ snapshot, 0 ≤ p.2 ∧ p.2 ≤ 10)
    (L : List String) :
    ∀ (acc : KairoState), L.Nodup →
      (∀ e ∈ L, getVal acc.emotional_state e 0 = getVal snapshot e 0) →
      ∀ e ∈ L, getVal ((L.foldl (decayStep snapshot dt) acc)).emotional_state e 0
        = decayResult e (getVal snapshot e 0) dt := by
  induction L with
  | nil => intro acc _ _ e he; cases he
  | cons a L ih =>
    intro acc hnd hacc e he
    rw [List.foldl_cons]
    rcases List.mem_cons.1 he with rfl | heL
    · have hnotin : e ∉ L := (List.nodup_cons.1 hnd).1
      rw [decay_fold_untouched _ _ L _ _ _ hnotin]
      have hb := getVal_bounds (m := snapshot) hsb e
      exact decayStep_getVal_self _ _ _ _ (hacc e he) hb.1 hb.2 hdt
    · apply ih (decayStep snapshot dt acc a) (List.nodup_cons.1 hnd).2 ?_ e heL
      intro e'' he''
      have hne : e'' ≠ a := fun hq => (List.nodup_cons.1 hnd).1 (hq ▸ he'')
      rw [decayStep_getVal_ne _ _ _ _ _ hne]
      exact hacc e'' (List.mem_cons_of_mem _ he'')

/-! ### Helper lemmas about memory consolidation and truncation -/

theorem dedupById_cons (m : MemoryRecord) (ms : List MemoryRecord)
    (seen : List MemId) :
    dedupById (m :: ms) seen =
      if m.id ∈ seen then dedupById ms seen
      else m :: dedupById ms (m.id :: seen) := rfl

theorem dedupById_all_seen :
    ∀ (r : List MemoryRecord) (seen : List MemId),
      (∀ x ∈ r, x.id ∈ seen) → dedupById r seen = []
  | [], _, _ => rfl
  | m :: r, seen, h => by
    have hm : m.id ∈ seen := h m (List.mem_cons_self m r)
    simp only [dedupById, if_pos hm]
    exact dedupById_all_seen r seen fun x hx => h x (List.mem_cons_of_mem _ hx)

theorem dedupById_append_eq :
    ∀ (l r : List MemoryRecord) (seen : List MemId),
      (l.map MemoryRecord.id).Nodup →
      (∀ i ∈ seen, i ∉ l.map MemoryRecord.id) →
      (∀ x ∈ r, x.id ∈ l.map MemoryRecord.id ∨ x.id ∈ seen) →
      dedupById (l ++ r) seen = l
  | [], r, seen, _, _, h3 => by
    apply dedupById_all_seen
    intro x hx
    rcases h3 x hx with h | h
    · cases h
    · exact h
  | m :: l, r, seen, h1, h2, h3 => by
    rw [List.map_cons] at h1 h2 h3
    have hnd := List.nodup_cons.1 h1
    have hm : m.id ∉ seen := fun hin => h2 m.id hin (List.mem_cons_self _ _)
    have hrec := dedupById_append_eq l r (m.id :: seen) hnd.2
      (fun i hi => by
        rcases List.mem_cons.1 hi with rfl | hi'
        · exact hnd.1
        · exact fun hc => h2 i hi' (List.mem_cons_of_mem _ hc))
      (fun x hx => by
        rcases h3 x hx with h | h
        · rcases List.mem_cons.1 h with he | he
          · exact Or.inr (he ▸ List.mem_cons_self _ _)
          · exact Or.inl he
        · exact Or.inr (List.mem_cons_of_mem _ h))
    rw [List.cons_append]
    simp only [dedupById, if_neg hm]
    rw [hrec]

theorem mem_dedupById :
    ∀ (l : List MemoryRecord) (seen : List MemId),
      (∀ x ∈ l, ∀ y ∈ l, x.id = y.id → x = y) →
      ∀ m : MemoryRecord, (m ∈ dedupById l seen ↔ m ∈ l ∧ m.id ∉ seen)
  | [], seen, _, m => by simp [dedupById]
  | a :: l, seen, huniq, m => by
    have huniq' : ∀ x ∈ l, ∀ y ∈ l, x.id = y.id → x = y := fun x hx y hy =>
      huniq x (List.mem_cons_of_mem _ hx) y (List.mem_cons_of_mem _ hy)
    by_cases ha : a.id ∈ seen
    · rw [show dedupById (a :: l) seen = dedupById l seen by
        simp [dedupById, ha]]
      rw [mem_dedupById l seen huniq' m]
      constructor
      · rintro ⟨hm, hs⟩
        exact ⟨List.mem_cons_of_mem _ hm, hs⟩
      · rintro ⟨hm, hs⟩
        rcases List.mem_cons.1 hm with rfl | hm'
        · exact absurd ha hs
        · exact ⟨hm', hs⟩
    · rw [show dedupById (a :: l) seen = a :: dedupById l (a.id :: seen) by
        simp [dedupById, ha]]
      rw [List.mem_cons, mem_dedupById l (a.id :: seen) huniq' m]
      constructor
      · rintro (rfl | ⟨hm, hs⟩)
        · exact ⟨List.mem_cons_self _ _, ha⟩
        · exact ⟨List.mem_cons_of_mem _ hm,
            fun hseen => hs (List.mem_cons_of_mem _ hseen)⟩
      · rintro ⟨hm, hs⟩
        rcases List.mem_cons.1 hm with rfl | hm'
        · exact Or.inl rfl
        · by_cases hid : m.id = a.id
          · have : m = a := huniq m (List.mem_cons_of_mem _ hm') a
              (List.mem_cons_self _ _) hid
            exact Or.inl this
          · exact Or.inr ⟨hm', fun hc => by
              rcases List.mem_cons.1 hc with hc' | hc'
              · exact hid hc'
              · exact hs hc'⟩

theorem dedupById_length_le :
    ∀ (l : List MemoryRecord) (seen : List MemId),
      (dedupById l seen).length ≤ l.length
  | [], _ => Nat.le_refl 0
  | a :: l, seen => by
    by_cases ha : a.id ∈ seen
    · simp only [dedupById, if_pos ha]
      exact Nat.le_succ_of_le (dedupById_length_le l seen)
    · simp only [dedupById, if_neg ha, List.length_cons]
      exact Nat.succ_le_succ (dedupById_length_le l (a.id :: seen))

theorem dedupById_ids :
    ∀ (l : List MemoryRecord) (seen : List MemId),
      ((dedupById l seen).map MemoryRecord.id).Nodup ∧
        ∀ i ∈ (dedupById l seen).map MemoryRecord.id, i ∉ seen
  | [], _ => ⟨List.nodup_nil, by simp [dedupById]⟩
  | a :: l, seen => by
    by_cases ha : a.id ∈ seen
    · simp only [dedupById, if_pos ha]
      exact dedupById_ids l seen
    · have ih := dedupById_ids l (a.id :: seen)
      simp only [dedupById, if_neg ha, List.map_cons]
      constructor
      · refine List.nodup_cons.2 ⟨?_, ih.1⟩
        intro hc
        exact ih.2 a.id hc (List.mem_cons_self _ _)
      · intro i hi
        rcases List.mem_cons.1 hi with rfl | hi'
        · exact ha
        · exact fun hc => ih.2 i hi' (List.mem_cons_of_mem _ hc)

theorem lastN_subset {l : List MemoryRecord} {m : MemoryRecord} (n : Nat)
    (h : m ∈ lastN n l) : m ∈ l :=
  (List.drop_suffix _ _).subset h

theorem lastN_length (n : Nat) (l : List MemoryRecord) :
    (lastN n l).length = min n l.length := by
  simp only [lastN, List.length_drop]
  omega

/-- Success-case unfolding of consolidation: a produced collection is the
sorted deduplication, and the comparability guard held. -/
theorem consolidate_memories_some {mems out : List MemoryRecord}
    (h : consolidate_memories mems = some out) :
    allComparable (dedupById
      ((mems.filter (fun m => m.importance ≥ importanceThreshold)) ++
        lastN 100 mems) []) = true ∧
    out = (dedupById
      ((mems.filter (fun m => m.importance ≥ importanceThreshold)) ++
        lastN 100 mems) []).mergeSort
      (fun a b => a.timestamp.key ≤ b.timestamp.key) := by
  simp only [consolidate_memories] at h
  split at h
  · next hc => exact ⟨hc, (Option.some.inj h).symm⟩
  · cases h

/-- Failure-case unfolding of consolidation: when the comparability guard
fails on the deduplicated collection, no collection is produced (the
source raises `TypeError` out of the sort). -/
theorem consolidate_memories_none (mems : List MemoryRecord)
    (h : allComparable (dedupById
      ((mems.filter (fun m => m.importance ≥ importanceThreshold)) ++
        lastN 100 mems) []) = false) :
    consolidate_memories mems = none := by
  simp only [consolidate_memories]
  rw [if_neg (by rw [h]; exact fun hc => Bool.noConfusion hc)]

/-- A completed consolidation is sorted by the chronological key (the
comparability guard means all retained records are of one family, where the
key order is the source's timestamp order). -/
theorem consolidate_memories_sorted {mems out : List MemoryRecord}
    (h : consolidate_memories mems = some out) :
    out.Pairwise (fun a b => a.timestamp.key ≤ b.timestamp.key) := by
  obtain ⟨-, rfl⟩ := consolidate_memories_some h
  refine List.Pairwise.imp ?_ (List.sorted_mergeSort ?_ ?_ _)
  · intro a b hb
    exact of_decide_eq_true hb
  · intro a b c hab hbc
    simp only [decide_eq_true_eq] at *
    omega
  · intro a b
    rcases Nat.le_total a.timestamp.key b.timestamp.key with h | h <;> simp [h]

/-- When every record clears the importance threshold, ids are distinct and
all timestamps are mutually comparable, consolidation completes and keeps
the whole collection (merely reordering it): the "important" set already
covers everything and deduplication removes the recent window as
duplicates. -/
theorem consolidate_memories_keep_all (mems : List MemoryRecord)
    (himp : ∀ m ∈ mems, importanceThreshold ≤ m.importance)
    (hnd : (mems.map MemoryRecord.id).Nodup)
    (hcmp : allComparable mems = true) :
    consolidate_memories mems =
      some (mems.mergeSort (fun a b => a.timestamp.key ≤ b.timestamp.key)) := by
  simp only [consolidate_memories]
  have hfilter : mems.filter (fun m => m.importance ≥ importanceThreshold)
      = mems := by
    apply List.filter_eq_self.2
    intro a ha
    simpa using himp a ha
  rw [hfilter,
    dedupById_append_eq mems (lastN 100 mems) [] hnd (by simp)
      (fun x hx => Or.inl (List.mem_map_of_mem _ (lastN_subset 100 hx))),
    if_pos hcmp]

theorem consolidate_memories_length_le {mems out : List MemoryRecord}
    (h : consolidate_memories mems = some out) :
    out.length ≤
      (mems.filter (fun m => m.importance ≥ importanceThreshold)).length +
        100 := by
  obtain ⟨-, rfl⟩ := consolidate_memories_some h
  rw [List.length_mergeSort]
  have h1 := dedupById_length_le
    ((mems.filter (fun m => m.importance ≥ importanceThreshold)) ++
      lastN 100 mems) []
  have h2 := lastN_length 100 mems
  simp only [List.length_append] at h1
  omega

theorem mem_consolidate_memories {mems : List MemoryRecord}
    (hnd : (mems.map MemoryRecord.id).Nodup) {out : List MemoryRecord}
    (h : consolidate_memories mems = some out) (m : MemoryRecord) :
    m ∈ out ↔
      m ∈ mems ∧
        (importanceThreshold ≤ m.importance ∨ m ∈ lastN 100 mems) := by
  obtain ⟨-, rfl⟩ := consolidate_memories_some h
  rw [List.Perm.mem_iff (List.mergeSort_perm _ _)]
  have hsub : ∀ x ∈ (mems.filter
      (fun m => m.importance ≥ importanceThreshold)) ++ lastN 100 mems,
      x ∈ mems := by
    intro x hx
    rcases List.mem_append.1 hx with h | h
    · exact List.mem_of_mem_filter h
    · exact lastN_subset 100 h
  have huniq : ∀ x ∈ (mems.filter
      (fun m => m.importance ≥ importanceThreshold)) ++ lastN 100 mems,
      ∀ y ∈ (mems.filter
        (fun m => m.importance ≥ importanceThreshold)) ++ lastN 100 mems,
      x.id = y.id → x = y := fun x hx y hy hxy =>
    List.inj_on_of_nodup_map hnd (hsub x hx) (hsub y hy) hxy
  rw [mem_dedupById _ [] huniq m]
  simp only [List.not_mem_nil, not_false_iff, and_true]
  constructor
  · intro h
    rcases List.mem_append.1 h with h | h
    · exact ⟨List.mem_of_mem_filter h,
        Or.inl (by simpa using (List.mem_filter.1 h).2)⟩
    · exact ⟨lastN_subset 100 h, Or.inr h⟩
  · rintro ⟨hm, himp | hlast⟩
    · exact List.mem_append.2
        (Or.inl (List.mem_filter.2 ⟨hm, by simpa using himp⟩))
    · exact List.mem_append.2 (Or.inr hlast)

theorem consolidate_memories_ids_nodup {mems out : List MemoryRecord}
    (h : consolidate_memories mems = some out) :
    (out.map MemoryRecord.id).Nodup := by
  obtain ⟨-, rfl⟩ := consolidate_memories_some h
  exact ((List.mergeSort_perm _ _).map MemoryRecord.id).nodup_iff.2
    (dedupById_ids _ []).1

/-- Every list of records whose timestamps all belong to the `iso` family is
pairwise comparable. -/
theorem allComparable_iso (l : List MemoryRecord)
    (h : ∀ m ∈ l, ∃ t, m.timestamp = .iso t) : allComparable l = true := by
  induction l with
  | nil => rfl
  | cons m ms ih =>
    simp only [allComparable, Bool.and_eq_true]
    constructor
    · rw [List.all_eq_true]
      intro x hx
      obtain ⟨t1, ht1⟩ := h m (List.mem_cons_self _ _)
      obtain ⟨t2, ht2⟩ := h x (List.mem_cons_of_mem _ hx)
      simp [comparableTS, ht1, ht2, TimeStamp.cmpLe]
    · exact ih fun x hx => h x (List.mem_cons_of_mem _ hx)

/-- Concrete importance of the scenario message `"oi?"` from `"user"`:
base `0.5` + user bonus `0.1` + question bonus `0.2` = `0.8`. -/
theorem calculate_importance_oi : calculate_importance "oi?" "user" = 4/5 := by
  have h1 : ("oi?".length ≤ 100) := by decide
  have h2 : (["aprendi", "entendi", "interessante", "obrigado"].any
      (fun w => strContains (strLower "oi?") w)) = false := by decide
  have h3 : strContains "oi?" "?" = true := by decide
  have h4 : (["amo", "odeio", "feliz", "triste", "raiva", "medo"].any
      (fun w => strContains (strLower "oi?") w)) = false := by decide
  simp only [calculate_importance, h2, h3, h4, Bool.false_eq_true, if_false,
    if_true, Nat.not_lt.2 h1, beq_self_eq_true]
  norm_num

theorem iterAdds_memories :
    ∀ n : Nat, n ≤ maxConversationHistory →
      (iterAdds n).memories = (List.range n).map interactionRecordAt
  | 0, _ => rfl
  | n + 1, hn => by
    have ih := iterAdds_memories n (Nat.le_of_succ_le hn)
    have hlen : (iterAdds n).memories.length = n := by
      rw [ih, List.length_map, List.length_range]
    have hrec : addInteractionRecord (iterAdds n) "user" "oi?" (n + 1)
        = interactionRecordAt n := by
      simp [addInteractionRecord, interactionRecordAt, hlen]
    show (add_interaction (iterAdds n) "user" "oi?" (n + 1)).1.memories = _
    simp only [add_interaction, hrec, ih]
    rw [if_neg (by
      simp only [List.length_append, List.length_map, List.length_range,
        List.length_cons, List.length_nil, maxConversationHistory]
      simp only [maxConversationHistory] at hn
      omega)]
    rw [List.range_succ, List.map_append]
    rfl

/-- One unfolding step of the iterated-interaction scenario. -/
theorem iterAdds_succ (n : Nat) :
    iterAdds (n + 1) = (add_interaction (iterAdds n) "user" "oi?" (n + 1)).1 :=
  rfl

/-- The ids of the scenario records are pairwise distinct (the id carries the
record's position in the collection at insertion time). -/
theorem iterAdds_ids_nodup (n : Nat) :
    (((List.range n).map interactionRecordAt).map MemoryRecord.id).Nodup := by
  rw [List.map_map]
  refine List.Nodup.map ?_ (List.nodup_range n)
  intro a b h
  simpa [interactionRecordAt] using congrArg
    (fun i => match i with
      | MemId.interaction _ c => c
      | MemId.mem _ c => c) h

/-- A check tick either leaves the idle state unchanged without firing, or —
only when the fired-count is below the cap — fires exactly one activity and
increments the count. -/
theorem idle_check_tick_cases (st : IdleState) (now : ℚ)
    (selected : Option String) (execSuccess : Bool) :
    idle_check_tick st now selected execSuccess = (st, false) ∨
      (st.currentIdleActions < maxIdleActions ∧
        idle_check_tick st now selected execSuccess =
          ({ st with currentIdleActions := st.currentIdleActions + 1 },
            true)) := by
  unfold idle_check_tick process_idle_period
  repeat' split
  all_goals first
    | exact Or.inl rfl
    | exact Or.inr ⟨by omega, rfl⟩

/-- Over any run of check ticks the number of fired activities never exceeds
the remaining budget below the per-period cap. -/
theorem run_idle_ticks_le :
    ∀ (ticks : List (ℚ × Option String × Bool)) (st : IdleState),
      (run_idle_ticks st ticks).2 ≤
        maxIdleActions - st.currentIdleActions
  | [], _ => by simp [run_idle_ticks]
  | t :: ticks, st => by
    rcases idle_check_tick_cases st t.1 t.2.1 t.2.2 with h | ⟨hlt, h⟩
    · have ih := run_idle_ticks_le ticks st
      simp only [run_idle_ticks, h]
      simpa using ih
    · have ih := run_idle_ticks_le ticks
        { st with currentIdleActions := st.currentIdleActions + 1 }
      simp only [run_idle_ticks, h, if_true]
      simp only [maxIdleActions] at ih hlt ⊢
      omega

/-- The scan loop of the selection: it returns the first kind whose
cumulative weight reaches the draw, and for a two-kind table this reduces to
a threshold comparison. -/
theorem select_scan_pair (a b : String) (wa wb r : ℚ) :
    select_scan [(a, wa), (b, wb)] r 0 =
      if r ≤ wa then some a else if r ≤ wa + wb then some b else none := by
  simp only [select_scan, zero_add]

theorem select_idle_activity_none_iff (ws : List (String × ℚ)) (r : ℚ)
    (hw : ∀ p ∈ ws, 0 ≤ p.2) :
    (select_idle_activity ws r = none ↔
      ws = [] ∨ (ws.map Prod.snd).sum = 0) := by
  cases ws with
  | nil => simp [select_idle_activity]
  | cons a t =>
    have hsum : 0 ≤ ((a :: t).map Prod.snd).sum := by
      apply List.sum_nonneg
      intro x hx
      rcases List.mem_map.1 hx with ⟨p, hp, rfl⟩
      exact hw p hp
    by_cases htot : ((a :: t).map Prod.snd).sum ≤ 0
    · have hz : ((a :: t).map Prod.snd).sum = 0 := le_antisymm htot hsum
      simp only [List.map_cons, List.sum_cons] at htot hz
      simp [select_idle_activity, htot, hz]
    · have hz : ¬((a :: t).map Prod.snd).sum = 0 := fun h0 =>
        htot (le_of_eq h0)
      simp only [List.map_cons, List.sum_cons] at htot hz
      simp only [select_idle_activity, List.map_cons, List.sum_cons,
        List.isEmpty_cons, if_neg htot, Bool.false_eq_true, if_false]
      cases hscan : select_scan (a :: t) r 0 with
      | some x => simp [hscan, hz, htot]
      | none => simp [hscan, hz, htot]

theorem getVal_not_mem {m : List (String × ℚ)} {k : String} (d : ℚ)
    (h : ∀ p ∈ m, p.1 ≠ k) : getVal m k d = d := by
  induction m with
  | nil => rfl
  | cons p m ih =>
    rw [getVal_cons, if_neg (h p (List.mem_cons_self _ _))]
    exact ih fun q hq => h q (List.mem_cons_of_mem _ hq)

theorem setVal_not_mem {m : List (String × ℚ)} {k : String} (v : ℚ)
    (h : ∀ p ∈ m, p.1 ≠ k) : setVal m k v = m ++ [(k, v)] := by
  induction m with
  | nil => rfl
  | cons p m ih =>
    simp only [setVal, beq_iff_eq, if_neg (h p (List.mem_cons_self _ _)),
      List.cons_append, List.cons.injEq, true_and]
    exact ih fun q hq => h q (List.mem_cons_of_mem _ hq)

/-- Unfolding of the `add_memory` collection effect. -/
theorem add_memory_memories (st : KairoState) (content mtype uid : String)
    (nowMs : Nat) :
    (add_memory st content mtype uid nowMs).1.memories =
      if (st.memories ++ [addMemoryRecord st content mtype uid
          nowMs]).length > maxMemories then
        lastN maxMemories (st.memories ++ [addMemoryRecord st content mtype
          uid nowMs])
      else st.memories ++ [addMemoryRecord st content mtype uid nowMs] := rfl

/-- Unfolding of the `add_interaction` collection effect: the appended list,
replaced by the consolidation result when the cap is exceeded and
consolidation completes, and left as the appended (over-cap) list when
consolidation raises. -/
theorem add_interaction_memories (st : KairoState) (author content : String)
    (nowMs : Nat) :
    (add_interaction st author content nowMs).1.memories =
      if (st.memories ++ [addInteractionRecord st author content
          nowMs]).length > maxConversationHistory then
        match consolidate_memories (st.memories ++ [addInteractionRecord st
            author content nowMs]) with
        | some out => out
        | none => st.memories ++ [addInteractionRecord st author content
            nowMs]
      else st.memories ++ [addInteractionRecord st author content nowMs] := by
  simp only [add_interaction]
  split
  · split <;> rfl
  · rfl

/-- The `add_interaction` return value: `none` exactly when the cap was
exceeded and consolidation raised. -/
theorem add_interaction_ret_none (st : KairoState) (author content : String)
    (nowMs : Nat) :
    (add_interaction st author content nowMs).2 = none ↔
      ((st.memories ++ [addInteractionRecord st author content
          nowMs]).length > maxConversationHistory ∧
        consolidate_memories (st.memories ++ [addInteractionRecord st author
          content nowMs]) = none) := by
  simp only [add_interaction]
  split
  · next hgt =>
    simp only [List.length_append, List.length_cons, List.length_nil] at hgt
    split
    · next x hc => simp [hc]
    · next hc => simp [hgt, hc]
  · next hgt =>
    simp only [List.length_append, List.length_cons, List.length_nil] at hgt
    simp [hgt]

/-! ### Claims -/

/-- C1 (counterexample): with `joy` stored at its in-bounds value `5.0`, the
call `update_emotional_state("joy", 0.005)` leaves the store entirely
unchanged even though `clamp(5.0 + 0.005) = 5.005 ≠ 5.0` — the claim's
"sets the stored value of e to clamp(v + d)" fails for deltas whose clamped
change does not exceed `0.01`. -/
theorem claim_C1_counterexample :
    getVal initialState.emotional_state "joy" 0 = 5 ∧
    (update_emotional_state initialState "joy" (1/200)).1 = initialState ∧
    max 0 (min 10 ((5 : ℚ) + 1/200)) ≠ 5 := by
  have hjoy : getVal initialState.emotional_state "joy" 0 = 5 := by
    simp [initialState, defaultEmotionalState, getVal_cons]
  have hmin : min (10 : ℚ) (5 + 1/200) = 5 + 1/200 := min_eq_right (by norm_num)
  have hmax : max (0 : ℚ) (5 + 1/200) = 5 + 1/200 := max_eq_right (by norm_num)
  refine ⟨hjoy, ?_, ?_⟩
  · apply update_emotional_state_insignificant
    rw [hjoy, hmin, hmax]
    rw [abs_of_nonneg (by norm_num)]
    norm_num
  · rw [hmin, hmax]
    norm_num

/-- C1 (amended): `update_emotional_state(e, d)` computes
`clamp(v + d)` into `[0, 10]` and stores it exactly when the absolute change
exceeds `0.01`, leaving the store untouched otherwise; the call returns
`None`, not the post-clamp value.  The scenario values hold: from the default
state (`joy = 5.0`), a `+3.0` update stores `8.0`, and a further `+10.0`
update stores `10.0` (clamped), not `18.0`. -/
theorem claim_C1 :
    (∀ (st : KairoState) (e : String) (δ : ℚ),
      ((|max 0 (min 10 (getVal st.emotional_state e 0 + δ)) -
          getVal st.emotional_state e 0| > 1/100) →
        getVal (update_emotional_state st e δ).1.emotional_state e 0 =
          max 0 (min 10 (getVal st.emotional_state e 0 + δ))) ∧
      ((|max 0 (min 10 (getVal st.emotional_state e 0 + δ)) -
          getVal st.emotional_state e 0| ≤ 1/100) →
        (update_emotional_state st e δ).1 = st) ∧
      (update_emotional_state st e δ).2 = none) ∧
    getVal (update_emotional_state initialState "joy" 3).1.emotional_state
      "joy" 0 = 8 ∧
    getVal (update_emotional_state
      (update_emotional_state initialState "joy" 3).1 "joy"
        10).1.emotional_state "joy" 0 = 10 := by
  refine ⟨fun st e δ =>
    ⟨?_, update_emotional_state_insignificant st e δ,
      (update_emotional_state_cases st e δ).2⟩, ?_, ?_⟩
  · intro h
    rw [update_emotional_state_significant st e δ h]
    exact getVal_setVal_self _ _ _ _
  · norm_num [update_emotional_state, initialState, defaultEmotionalState,
      getVal, setVal, List.find?, beq_iff_eq]
  · norm_num [update_emotional_state, initialState, defaultEmotionalState,
      getVal, setVal, List.find?, beq_iff_eq]

/-- C1 (witness): the significant-change branch of the amended theorem
applied at the concrete input `joy`, `+3.0` from the default state. -/
theorem claim_C1_witness :
    getVal (update_emotional_state initialState "joy" 3).1.emotional_state
      "joy" 0 =
      max 0 (min 10 (getVal initialState.emotional_state "joy" 0 + 3)) := by
  refine (claim_C1.1 initialState "joy" 3).1 ?_
  have hjoy : getVal initialState.emotional_state "joy" 0 = 5 := by
    simp [initialState, defaultEmotionalState, getVal_cons]
  rw [hjoy]
  rw [min_eq_right (by norm_num : (5 : ℚ) + 3 ≤ 10),
    max_eq_right (by norm_num : (0 : ℚ) ≤ 5 + 3)]
  rw [abs_of_nonneg (by norm_num)]
  norm_num

/-- C2 (confirmed): the initial state is within bounds, and every modelled
mutation — emotion update, trait update, a text-analysis adjustment pass
(arbitrary adjustment list, including the inhibition pass), and a decay
tick — preserves the bounds `[0, 10]` on every stored emotion and trait by
clamping rather than rejecting writes, so no reachable state holds an
out-of-bounds value. -/
theorem claim_C2 :
    StateInBounds initialState ∧
    (∀ (st : KairoState) (e : String) (δ : ℚ), StateInBounds st →
      StateInBounds (update_emotional_state st e δ).1) ∧
    (∀ (st : KairoState) (t : String) (δ : ℚ), StateInBounds st →
      StateInBounds (update_personality_trait st t δ)) ∧
    (∀ (st : KairoState) (adjustments : List (String × ℚ)),
      StateInBounds st →
      StateInBounds (apply_emotion_adjustments st adjustments)) ∧
    (∀ (st : KairoState) (dt : ℚ), StateInBounds st →
      StateInBounds (apply_emotional_decay st dt)) := by
  refine ⟨⟨?_, ?_⟩, update_emotional_state_preserves,
    update_personality_trait_preserves, apply_emotion_adjustments_preserves,
    apply_emotional_decay_preserves⟩
  · intro p hp
    fin_cases hp <;> norm_num
  · intro p hp
    fin_cases hp <;> norm_num

/-- C2 (witness): bound preservation applied at a concrete input — the
initial state (in bounds by the first conjunct) updated on `joy` by `+3.0`. -/
theorem claim_C2_witness :
    StateInBounds (update_emotional_state initialState "joy" 3).1 :=
  claim_C2.2.1 initialState "joy" 3 claim_C2.1

/-- C9 (counterexample): `update_emotional_state` with the malformed name
`"bogus"` is not a no-op — it creates a brand-new entry `("bogus", 3.0)` in
the emotional state (the Python `dict` assignment inserts the unknown key),
so the store is changed. -/
theorem claim_C9_counterexample :
    "bogus" ∉ emotionsList ∧
    (update_emotional_state initialState "bogus" 3).1.emotional_state =
      defaultEmotionalState ++ [("bogus", 3)] ∧
    (update_emotional_state initialState "bogus" 3).1 ≠ initialState := by
  have hmem : ∀ p ∈ initialState.emotional_state, p.1 ≠ "bogus" := by decide
  have h0 : getVal initialState.emotional_state "bogus" 0 = 0 :=
    getVal_not_mem 0 hmem
  have hclamp : max 0 (min 10 ((0 : ℚ) + 3)) = 3 := by
    rw [zero_add, min_eq_right (by norm_num : (3 : ℚ) ≤ 10),
      max_eq_right (by norm_num : (0 : ℚ) ≤ 3)]
  have hstate : (update_emotional_state initialState "bogus"
      3).1.emotional_state = defaultEmotionalState ++ [("bogus", 3)] := by
    rw [update_emotional_state_significant initialState "bogus" 3
      (by rw [h0, hclamp, sub_zero, abs_of_nonneg (by norm_num : (0:ℚ) ≤ 3)]
          norm_num)]
    show setVal initialState.emotional_state "bogus"
      (max 0 (min 10 (getVal initialState.emotional_state "bogus" 0 + 3))) = _
    rw [h0, hclamp, setVal_not_mem 3 hmem]
    rfl
  refine ⟨by decide, hstate, fun h => ?_⟩
  have := congrArg KairoState.emotional_state h
  rw [hstate] at this
  simp [initialState, defaultEmotionalState] at this

/-- C9 (amended): the validating no-op path for malformed emotion names is
`EmotionEngine.trigger_emotion`, which leaves the store unchanged for any
name outside the fixed emotion set (and returns `None`, not the current
value); `StateManager.update_emotional_state` itself performs no name
validation — for a name absent from the emotional state it reads `0.0` and
appends a fresh clamped entry whenever the clamped intensity exceeds
`0.01`. -/
theorem claim_C9 :
    (∀ (st : KairoState) (e : String) (i : ℚ), e ∉ emotionsList →
      trigger_emotion st e i = st) ∧
    (∀ (st : KairoState) (e : String) (δ : ℚ),
      (∀ p ∈ st.emotional_state, p.1 ≠ e) →
      |max 0 (min 10 δ)| > 1/100 →
      (update_emotional_state st e δ).1.emotional_state =
        st.emotional_state ++ [(e, max 0 (min 10 δ))]) := by
  constructor
  · intro st e i h
    simp [trigger_emotion, h]
  · intro st e δ hmem hδ
    have h0 : getVal st.emotional_state e 0 = 0 := getVal_not_mem 0 hmem
    have hsig := update_emotional_state_significant st e δ
      (by rw [h0, zero_add, sub_zero]; exact hδ)
    rw [hsig]
    show setVal st.emotional_state e
      (max 0 (min 10 (getVal st.emotional_state e 0 + δ))) = _
    rw [h0, zero_add]
    exact setVal_not_mem _ hmem

/-- C9 (witness): both amended branches at the concrete malformed name
`"bogus"`: `trigger_emotion` is a no-op, while the raw store update appends
a clamped entry. -/
theorem claim_C9_witness :
    trigger_emotion initialState "bogus" 3 = initialState ∧
    (update_emotional_state initialState "bogus" 3).1.emotional_state =
      initialState.emotional_state ++ [("bogus", max 0 (min 10 3))] :=
  ⟨claim_C9.1 initialState "bogus" 3 (by decide),
   claim_C9.2 initialState "bogus" 3 (by decide)
     (by
      rw [min_eq_right (by norm_num : (3 : ℚ) ≤ 10),
        max_eq_right (by norm_num : (0 : ℚ) ≤ 3)]
      rw [abs_of_nonneg (by norm_num)]
      norm_num)⟩

/-- C6 (counterexample): with `joy` stored at the in-bounds value `5.005`
(just above its baseline) and one elapsed minute, the claim's formula
`max(baseline, value − rate·Δt)` yields `5.0`, but the decay tick leaves the
stored value at `5.005` because the change `0.005` does not exceed the
significance cutoff `0.01`. -/
theorem claim_C6_counterexample :
    getVal c6State.emotional_state "joy" 0 = 5 + 1/200 ∧
    (0 : ℚ) ≤ 5 + 1/200 ∧ (5 + 1/200 : ℚ) ≤ 10 ∧
    max 5 ((5 + 1/200) - decayRate "joy" * 1) = 5 ∧
    getVal (apply_emotional_decay c6State 1).emotional_state "joy" 0 =
      5 + 1/200 ∧
    (5 + 1/200 : ℚ) ≠ 5 := by
  have hv : getVal c6State.emotional_state "joy" 0 = 5 + 1/200 := by
    simp [c6State, getVal_cons]
  have hrate : decayRate "joy" = 1/10 := by
    simp [decayRate, getVal_cons]
  have hmax : max 5 ((5 + 1/200 : ℚ) - decayRate "joy" * 1) = 5 := by
    rw [hrate]
    exact max_eq_left (by norm_num)
  have htgt : decayTarget "joy" (5 + 1/200) 1 = some 5 := by
    unfold decayTarget
    rw [if_pos (by decide : ("joy" : String) ∈ ["joy", "interest"]),
      if_pos (by norm_num : (5 + 1/200 : ℚ) > 5), hrate]
    rw [max_eq_left (by norm_num)]
  have habs : |(5 : ℚ) - (5 + 1/200)| = 1/200 := by
    rw [abs_sub_comm, abs_of_nonneg (by norm_num)]
    norm_num
  have hres : decayResult "joy" (5 + 1/200) 1 = 5 + 1/200 := by
    simp only [decayResult, htgt]
    rw [if_neg (by rw [habs]; norm_num)]
  have hsb : ∀ p ∈ c6State.emotional_state, 0 ≤ p.2 ∧ p.2 ≤ 10 := by
    intro p hp
    fin_cases hp <;> norm_num
  have heval := decay_fold_eval c6State.emotional_state 1 (by norm_num) hsb
    emotionsList c6State (by decide) (fun _ _ => rfl) "joy" (by decide)
  rw [hv, hres] at heval
  exact ⟨hv, by norm_num, by norm_num, hmax, heval, by norm_num⟩

/-- C6 (amended): a decay tick with nonnegative elapsed time sets, for each
emotion of the canonical list, the stored value to the relaxation target
`max(baseline, v − rate·Δt)` (above baseline) / `min(baseline, v + rate·Δt)`
(below baseline) whenever the resulting change exceeds `0.01`, and leaves it
unchanged otherwise (`decayResult` packages exactly this); in all cases the
result stays between the old value and the baseline, so repeated ticks move
values monotonically toward the baseline and never cross or overshoot it. -/
theorem claim_C6 :
    (∀ (st : KairoState) (dt : ℚ), 0 ≤ dt →
      (∀ p ∈ st.emotional_state, 0 ≤ p.2 ∧ p.2 ≤ 10) →
      ∀ e ∈ emotionsList,
        getVal (apply_emotional_decay st dt).emotional_state e 0 =
          decayResult e (getVal st.emotional_state e 0) dt) ∧
    (∀ (e : String) (v dt : ℚ), 0 ≤ dt →
      (decayBaseline e ≤ v →
        decayBaseline e ≤ decayResult e v dt ∧ decayResult e v dt ≤ v) ∧
      (v ≤ decayBaseline e →
        v ≤ decayResult e v dt ∧ decayResult e v dt ≤ decayBaseline e)) := by
  constructor
  · intro st dt hdt hb e he
    simp only [apply_emotional_decay]
    exact decay_fold_eval st.emotional_state dt hdt hb emotionsList st
      (by decide) (fun _ _ => rfl) e he
  · intro e v dt hdt
    exact decayResult_toward_baseline e v dt hdt

/-- C6 (witness): the amended decay characterization applied at the concrete
input — the default state, one elapsed minute, emotion `joy`. -/
theorem claim_C6_witness :
    getVal (apply_emotional_decay initialState 1).emotional_state "joy" 0 =
      decayResult "joy" (getVal initialState.emotional_state "joy" 0) 1 :=
  claim_C6.1 initialState 1 (by norm_num)
    (by intro p hp; fin_cases hp <;> norm_num) "joy" (by decide)

/-- C7 (counterexample): at the boundary draw `r = 30` (inside `[0, 40)`)
with weights `{A: 30, B: 10}`, the source's scan (`rand_value <=
current_weight`) selects `A`, while the claim's rule ("first kind whose
cumulative weight exceeds the draw", strict `>`) selects `B`. -/
theorem claim_C7_counterexample :
    select_idle_activity [("A", 30), ("B", 10)] 30 = some "A" ∧
    select_by_spec_rule [("A", 30), ("B", 10)] 30 = some "B" ∧
    ("A" : String) ≠ "B" ∧ (0 : ℚ) ≤ 30 ∧ (30 : ℚ) < 40 := by
  refine ⟨?_, ?_, by decide, by norm_num, by norm_num⟩
  · simp only [select_idle_activity, select_scan, List.isEmpty_cons,
      List.map_cons, List.sum_cons, List.map_nil, List.sum_nil]
    norm_num
  · simp only [select_by_spec_rule, select_scan_specRule, List.isEmpty_cons,
      List.map_cons, List.sum_cons, List.map_nil, List.sum_nil]
    norm_num

/-- C7 (amended): selection yields none exactly when the candidate table is
empty or its (nonnegative) weights sum to zero; the scan picks the first
kind whose cumulative weight reaches or exceeds the draw (`≤`, not strict
`>`), so with weights `{A: 30, B: 10}` a draw `r ∈ [0, 40)` selects `A`
exactly when `r ≤ 30`; the measure of that set of draws over the draw
interval is `30/40 = 0.75`. -/
theorem claim_C7 :
    (∀ (ws : List (String × ℚ)) (r : ℚ), (∀ p ∈ ws, 0 ≤ p.2) →
      (select_idle_activity ws r = none ↔
        ws = [] ∨ (ws.map Prod.snd).sum = 0)) ∧
    (∀ r : ℚ, 0 ≤ r → r < 40 →
      (select_idle_activity [("A", 30), ("B", 10)] r = some "A" ↔
        r ≤ 30)) ∧
    ((30 - 0 : ℚ) / (40 - 0) = 3/4) := by
  refine ⟨select_idle_activity_none_iff, ?_, by norm_num⟩
  intro r h0 h40
  simp only [select_idle_activity, List.isEmpty_cons, List.map_cons,
    List.sum_cons, List.map_nil, List.sum_nil, Bool.false_eq_true, if_false]
  rw [if_neg (by norm_num), select_scan_pair]
  by_cases hra : r ≤ 30
  · simp [hra]
  · have hrb : r ≤ 30 + 10 := by linarith
    simp [hra, hrb]

/-- C7 (witness): the none-characterization of the amended theorem applied
at the concrete weight table of the source with a zero draw. -/
theorem claim_C7_witness :
    select_idle_activity idleActivitiesBase 0 = none ↔
      idleActivitiesBase = [] ∨
        (idleActivitiesBase.map Prod.snd).sum = 0 :=
  claim_C7.1 idleActivitiesBase 0
    (by intro p hp; fin_cases hp <;> norm_num)

/-- C8 (confirmed): `update_interaction_time` stamps the clock and resets the
per-period fired-count to zero (and nothing else resets it — it is the only
modelled operation writing these fields); once the count has reached
`max_idle_actions` a check tick fires nothing and leaves the state
unchanged; each tick fires at most one activity (the fired flag of one tick
counts at most 1), and over any run of check ticks with no interaction the
number of fired activities never exceeds the remaining budget — in
particular at most 3 activities fire between two consecutive interaction
ticks. -/
theorem claim_C8 :
    (∀ (st : IdleState) (now : ℚ),
      update_interaction_time st now =
        { lastInteractionTime := now, currentIdleActions := 0 }) ∧
    (∀ (st : IdleState) (now : ℚ) (sel : Option String) (succ : Bool),
      maxIdleActions ≤ st.currentIdleActions →
      idle_check_tick st now sel succ = (st, false)) ∧
    (∀ (ticks : List (ℚ × Option String × Bool)) (st : IdleState),
      (run_idle_ticks st ticks).2 ≤
        maxIdleActions - st.currentIdleActions) ∧
    (∀ (st : IdleState) (now : ℚ)
      (ticks : List (ℚ × Option String × Bool)),
      (run_idle_ticks (update_interaction_time st now) ticks).2 ≤
        maxIdleActions) := by
  refine ⟨fun _ _ => rfl, ?_, run_idle_ticks_le, ?_⟩
  · intro st now sel succ h
    unfold idle_check_tick process_idle_period
    split
    · rfl
    · rfl
  · intro st now ticks
    have h := run_idle_ticks_le ticks (update_interaction_time st now)
    simpa [update_interaction_time] using h

/-- C8 (witness): the capped-tick conjunct applied at a concrete saturated
state — count already 3, a selected activity and a successful delegate, yet
nothing fires. -/
theorem claim_C8_witness :
    idle_check_tick ⟨0, 3⟩ 1000 (some "reflection") true = (⟨0, 3⟩, false) :=
  claim_C8.2.1 ⟨0, 3⟩ 1000 (some "reflection") true (by decide)

/-- C10 (counterexample): `save_state` performs its file I/O (backup rename,
backup pruning, snapshot write) while holding the mutual-exclusion guard,
and the snapshot-reading accessor `get_emotional_state` never acquires the
guard — both halves of the claim fail on the code. -/
theorem claim_C10_counterexample :
    ioWhileHeld save_state_events = true ∧
    acquiresGuard get_emotional_state_events = false := by decide

/-- C10 (amended): the mutating operations (emotion update, trait update,
`add_interaction`, `add_memory`, `save_state`) all acquire the guard; the
pure in-memory mutators hold it only around in-memory work, but `save_state`
holds it across the backup rotation and the snapshot write, and `add_memory`
can hold it across a profile-file write; the snapshot-reading accessors
(`get_emotional_state`, `get_recent_memories`) do not take the guard at
all. -/
theorem claim_C10 :
    acquiresGuard update_emotional_state_events = true ∧
    acquiresGuard update_personality_trait_events = true ∧
    acquiresGuard add_interaction_events = true ∧
    acquiresGuard add_memory_events = true ∧
    acquiresGuard save_state_events = true ∧
    ioWhileHeld update_emotional_state_events = false ∧
    ioWhileHeld update_personality_trait_events = false ∧
    ioWhileHeld add_interaction_events = false ∧
    ioWhileHeld save_state_events = true ∧
    ioWhileHeld add_memory_events = true ∧
    acquiresGuard get_emotional_state_events = false ∧
    acquiresGuard get_recent_memories_events = false := by decide

/-- C3 (counterexample): a store holding the cap of 1000 records whose
oldest record is above the importance threshold; one further `add_memory`
call silently drops that important record — `add_memory` truncates to the
most recent 1000 records and never consolidates, so importance confers no
survival. -/
theorem claim_C3_counterexample :
    importanceThreshold ≤ importantRecord.importance ∧
    importantRecord ∈ c3State.memories ∧
    importantRecord ∉
      (add_memory c3State "oi" "interaction" "default_user" 5).1.memories := by
  refine ⟨by norm_num [importantRecord, importanceThreshold],
    List.mem_cons_self _ _, ?_⟩
  have hmems := add_memory_memories c3State "oi" "interaction"
    "default_user" 5
  have hlen : (c3State.memories ++ [addMemoryRecord c3State "oi" "interaction"
      "default_user" 5]).length = 1001 := by
    rw [show c3State.memories = importantRecord ::
      List.replicate 999 fillerRecord from rfl]
    rw [List.length_append, List.length_cons, List.length_replicate]
    rfl
  rw [hmems, if_pos (by rw [hlen]; decide)]
  have hdrop : lastN maxMemories (c3State.memories ++ [addMemoryRecord
      c3State "oi" "interaction" "default_user" 5]) =
      List.replicate 999 fillerRecord ++ [addMemoryRecord c3State "oi"
        "interaction" "default_user" 5] := by
    rw [lastN, hlen]
    show (importantRecord :: List.replicate 999 fillerRecord ++
      [addMemoryRecord c3State "oi" "interaction" "default_user"
        5]).drop (1001 - maxMemories) = _
    rw [show (1001 : Nat) - maxMemories = 1 from rfl, List.cons_append,
      List.drop_succ_cons, List.drop_zero]
  rw [hdrop]
  intro hmem
  rcases List.mem_append.1 hmem with h | h
  · have hid := congrArg MemoryRecord.id (List.eq_of_mem_replicate h)
    simp [importantRecord, fillerRecord] at hid
  · have hid := congrArg MemoryRecord.id (List.mem_singleton.1 h)
    simp [importantRecord, addMemoryRecord] at hid

/-- C3 (amended): `add_memory` appends a record carrying the computed
importance and returns its id; when the collection would exceed
`max_memories` (1000) it keeps exactly the `min(n+1, 1000)` most recent
records — a suffix of the appended collection — dropping the oldest records
regardless of their importance (no consolidation happens on this path; the
newly added record, being the most recent, is always retained). -/
theorem claim_C3 :
    ∀ (st : KairoState) (content mtype uid : String) (nowMs : Nat),
      (add_memory st content mtype uid nowMs).2 =
        MemId.mem nowMs st.memories.length ∧
      (addMemoryRecord st content mtype uid nowMs).importance =
        calculate_importance content mtype ∧
      (add_memory st content mtype uid nowMs).1.memories.length =
        min (st.memories.length + 1) maxMemories ∧
      (add_memory st content mtype uid nowMs).1.memories <:+
        st.memories ++ [addMemoryRecord st content mtype uid nowMs] ∧
      addMemoryRecord st content mtype uid nowMs ∈
        (add_memory st content mtype uid nowMs).1.memories := by
  intro st content mtype uid nowMs
  have hmems := add_memory_memories st content mtype uid nowMs
  refine ⟨rfl, rfl, ?_, ?_, ?_⟩
  · rw [hmems]
    split
    · next h =>
      rw [lastN_length]
      simp only [List.length_append, List.length_cons, List.length_nil] at h ⊢
      omega
    · next h =>
      simp only [List.length_append, List.length_cons, List.length_nil] at h ⊢
      omega
  · rw [hmems]
    split
    · exact List.drop_suffix _ _
    · exact List.suffix_refl _
  · rw [hmems]
    split
    · next h =>
      have hk : (st.memories ++ [addMemoryRecord st content mtype uid
          nowMs]).length - maxMemories ≤ st.memories.length := by
        simp only [List.length_append, List.length_cons, List.length_nil,
          maxMemories]
        omega
      rw [lastN, List.drop_append_of_le_length hk]
      exact List.mem_append_right _ (List.mem_singleton.2 rfl)
    · exact List.mem_append_right _ (List.mem_singleton.2 rfl)

/-- C4 (counterexample): 1001 consecutive important interactions (content
`"oi?"` from `"user"`, importance 0.8 ≥ 0.7 each, all carrying ISO-family
timestamps so the consolidation sort completes) reach a state in which the
collection holds 1001 records — the 1001st add triggers consolidation, but
consolidation preserves every important record and so leaves the collection
above the configured cap of 1000. -/
theorem claim_C4_counterexample :
    (iterAdds 1001).memories.length = 1001 ∧
    maxConversationHistory < (iterAdds 1001).memories.length := by
  have h1000 := iterAdds_memories 1000 (by decide)
  have hlen1000 : (iterAdds 1000).memories.length = 1000 := by
    rw [h1000, List.length_map, List.length_range]
  have hrec : addInteractionRecord (iterAdds 1000) "user" "oi?" 1001
      = interactionRecordAt 1000 := by
    simp [addInteractionRecord, interactionRecordAt, hlen1000]
  have hsplit : (List.range 1001).map interactionRecordAt =
      (List.range 1000).map interactionRecordAt ++
        [interactionRecordAt 1000] := by
    rw [show (1001 : Nat) = 1000 + 1 from rfl, List.range_succ,
      List.map_append]
    rfl
  have hall : ∀ m ∈ (List.range 1001).map interactionRecordAt,
      importanceThreshold ≤ m.importance := by
    intro m hm
    rcases List.mem_map.1 hm with ⟨i, _, rfl⟩
    show importanceThreshold ≤ calculate_importance "oi?" "user"
    rw [calculate_importance_oi]
    norm_num [importanceThreshold]
  have hiso : ∀ m ∈ (List.range 1001).map interactionRecordAt,
      ∃ t, m.timestamp = TimeStamp.iso t := by
    intro m hm
    rcases List.mem_map.1 hm with ⟨i, _, rfl⟩
    exact ⟨i + 1, rfl⟩
  have hkeep := consolidate_memories_keep_all _ hall (iterAdds_ids_nodup 1001)
    (allComparable_iso _ hiso)
  have hstep : iterAdds 1001 =
      (add_interaction (iterAdds 1000) "user" "oi?" 1001).1 := by
    rw [show (1001 : Nat) = 1000 + 1 from rfl]
    exact iterAdds_succ 1000
  have hmem1001 : (iterAdds 1001).memories =
      ((List.range 1001).map interactionRecordAt).mergeSort
        (fun a b => a.timestamp.key ≤ b.timestamp.key) := by
    rw [hstep, add_interaction_memories, hrec, h1000, ← hsplit]
    rw [if_pos (by
      simp only [List.length_map, List.length_range]
      decide)]
    rw [hkeep]
  rw [hmem1001, List.length_mergeSort, List.length_map, List.length_range]
  exact ⟨rfl, by decide⟩

/-- C4 (amended): the cap is an invariant of the `add_memory` path (its
truncation bounds the collection by 1000 unconditionally), but not of
`add_interaction`: a completed consolidation bounds its result only by
(number of above-threshold records) + 100, which exceeds the cap once more
than 900 retained records are important, and when consolidation raises
(`TypeError` from sorting mixed ISO-string/epoch-float timestamps) the
appended over-cap collection is kept as-is; an `add_interaction` therefore
guarantees only "within cap, or within important + 101, or aborted with the
over-cap appended collection retained". -/
theorem claim_C4 :
    (∀ (st : KairoState) (content mtype uid : String) (nowMs : Nat),
      (add_memory st content mtype uid nowMs).1.memories.length ≤
        maxMemories) ∧
    (∀ mems out : List MemoryRecord,
      consolidate_memories mems = some out →
      out.length ≤
        (mems.filter (fun m => m.importance ≥ importanceThreshold)).length +
          100) ∧
    (∀ (st : KairoState) (author content : String) (nowMs : Nat),
      (add_interaction st author content nowMs).1.memories.length ≤
          maxConversationHistory ∨
        (add_interaction st author content nowMs).1.memories.length ≤
          (st.memories.filter
            (fun m => m.importance ≥ importanceThreshold)).length + 101 ∨
        ((add_interaction st author content nowMs).2 = none ∧
          (add_interaction st author content nowMs).1.memories =
            st.memories ++ [addInteractionRecord st author content nowMs] ∧
          maxConversationHistory <
            (add_interaction st author content nowMs).1.memories.length)) := by
  refine ⟨?_, fun mems out h => consolidate_memories_length_le h, ?_⟩
  · intro st content mtype uid nowMs
    rw [add_memory_memories]
    by_cases h : (st.memories ++ [addMemoryRecord st content mtype uid
        nowMs]).length > maxMemories
    · rw [if_pos h, lastN_length]
      exact Nat.min_le_left _ _
    · rw [if_neg h]
      simp only [maxMemories] at h ⊢
      omega
  · intro st author content nowMs
    have hmems := add_interaction_memories st author content nowMs
    by_cases h : (st.memories ++ [addInteractionRecord st author content
        nowMs]).length > maxConversationHistory
    · cases hc : consolidate_memories (st.memories ++ [addInteractionRecord
          st author content nowMs]) with
      | some out =>
        right; left
        rw [hmems, if_pos h, hc]
        show out.length ≤ (st.memories.filter
          (fun m => m.importance ≥ importanceThreshold)).length + 101
        have h1 := consolidate_memories_length_le hc
        have h2 : ((st.memories ++ [addInteractionRecord st author content
            nowMs]).filter
              (fun m => m.importance ≥ importanceThreshold)).length ≤
            (st.memories.filter
              (fun m => m.importance ≥ importanceThreshold)).length + 1 := by
          rw [List.filter_append]
          simp only [List.length_append]
          have := List.length_filter_le
            (fun m => m.importance ≥ importanceThreshold)
            [addInteractionRecord st author content nowMs]
          simp only [List.length_cons, List.length_nil] at this
          omega
        omega
      | none =>
        right; right
        have hm : (add_interaction st author content nowMs).1.memories =
            st.memories ++ [addInteractionRecord st author content
              nowMs] := by
          rw [hmems, if_pos h, hc]
        refine ⟨(add_interaction_ret_none st author content nowMs).2
          ⟨h, hc⟩, hm, ?_⟩
        rw [hm]
        exact h
    · left
      rw [hmems, if_neg h]
      omega

/-- C4 (witness): the completed-consolidation bound instantiated at a
concrete collection whose consolidation succeeds. -/
theorem claim_C4_witness :
    (c5Memories.mergeSort
      (fun a b => a.timestamp.key ≤ b.timestamp.key)).length ≤
      (c5Memories.filter
        (fun m => m.importance ≥ importanceThreshold)).length + 100 :=
  claim_C4.2.1 c5Memories _
    (consolidate_memories_keep_all c5Memories
      (by
        intro m hm
        simp only [c5Memories, List.mem_cons, List.not_mem_nil, or_false]
          at hm
        rcases hm with rfl | rfl | rfl <;> norm_num [importanceThreshold])
      (by decide) (by decide))

/-- C5 (corrected): for a collection with pairwise-distinct record ids,
when consolidation completes — that is, when every pair of retained
timestamps is mutually comparable, so all retained records come from one
timestamp family — the result keeps a record exactly when it is in the
collection and either meets the importance threshold or lies in the
100-record recency window, and it is chronologically sorted and free of
duplicate ids.  But on collections mixing the ISO-string timestamps of
`add_interaction` with the epoch-float timestamps of `add_memory` — the
population normal operation produces — the timestamp sort raises
`TypeError` and consolidation yields no collection at all, so the claim's
unconditional description of the result fails. -/
theorem claim_C5 (mems : List MemoryRecord)
    (hnd : (mems.map MemoryRecord.id).Nodup) :
    ∀ out : List MemoryRecord, consolidate_memories mems = some out →
      (∀ m : MemoryRecord,
        m ∈ out ↔
          m ∈ mems ∧
            (importanceThreshold ≤ m.importance ∨ m ∈ lastN 100 mems)) ∧
      out.Pairwise (fun a b => a.timestamp.key ≤ b.timestamp.key) ∧
      (out.map MemoryRecord.id).Nodup :=
  fun _ h => ⟨mem_consolidate_memories hnd h, consolidate_memories_sorted h,
    consolidate_memories_ids_nodup h⟩

/-- C5 (counterexample): an over-cap collection holding one ISO-family
record and 1000 epoch-family records — the population one `add_interaction`
plus repeated `add_memory` calls produce — fails the pairwise-comparability
guard: its consolidation must compare an ISO-string timestamp with an
epoch-float one, raises `TypeError`, and yields no collection at all
instead of the sorted important-plus-recent result the claim describes. -/
theorem claim_C5_counterexample :
    mixedMemories.length = 1001 ∧
    maxConversationHistory < mixedMemories.length ∧
    consolidate_memories mixedMemories = none := by
  have hlen : mixedMemories.length = 1001 := by
    rw [show mixedMemories =
        mixedIsoRecord :: List.replicate 1000 mixedEpochFiller from rfl,
      List.length_cons, List.length_replicate]
  have himpB : decide (mixedIsoRecord.importance ≥ importanceThreshold)
      = true :=
    decide_eq_true (by norm_num [mixedIsoRecord, importanceThreshold])
  have hfilB : decide (mixedEpochFiller.importance ≥ importanceThreshold)
      = false :=
    decide_eq_false (by norm_num [mixedEpochFiller, importanceThreshold])
  have hfilter : mixedMemories.filter
      (fun m => m.importance ≥ importanceThreshold) = [mixedIsoRecord] := by
    show (mixedIsoRecord :: List.replicate 1000 mixedEpochFiller).filter _
      = _
    rw [List.filter_cons, List.filter_replicate]
    simp [himpB, hfilB]
  have hlast : lastN 100 mixedMemories =
      List.replicate 100 mixedEpochFiller := by
    simp only [lastN, hlen]
    show (mixedIsoRecord :: List.replicate 1000 mixedEpochFiller).drop
      (1001 - 100) = _
    rw [show (1001 : Nat) - 100 = 900 + 1 from rfl, List.drop_succ_cons,
      List.drop_replicate]
  have hdedup : dedupById
      ([mixedIsoRecord] ++ List.replicate 100 mixedEpochFiller) [] =
      [mixedIsoRecord, mixedEpochFiller] := by
    rw [show ([mixedIsoRecord] ++ List.replicate 100 mixedEpochFiller) =
        mixedIsoRecord :: mixedEpochFiller ::
          List.replicate 99 mixedEpochFiller from rfl]
    rw [dedupById_cons, if_neg (List.not_mem_nil _),
      dedupById_cons,
      if_neg (by decide : ¬ mixedEpochFiller.id ∈ [mixedIsoRecord.id]),
      dedupById_all_seen _ _ (by
        intro x hx
        rw [List.eq_of_mem_replicate hx]
        exact List.mem_cons_self _ _)]
  refine ⟨hlen, by rw [hlen]; decide, ?_⟩
  apply consolidate_memories_none
  rw [hfilter, hlast, hdedup]
  decide

/-- C5 (witness): the completed-consolidation characterization applied to a
concrete single-family collection with distinct ids, whose consolidation
succeeds. -/
theorem claim_C5_witness :
    (∀ m : MemoryRecord,
      m ∈ c5Memories.mergeSort
          (fun a b => a.timestamp.key ≤ b.timestamp.key) ↔
        m ∈ c5Memories ∧
          (importanceThreshold ≤ m.importance ∨
            m ∈ lastN 100 c5Memories)) ∧
    (c5Memories.mergeSort
      (fun a b => a.timestamp.key ≤ b.timestamp.key)).Pairwise
      (fun a b => a.timestamp.key ≤ b.timestamp.key) ∧
    ((c5Memories.mergeSort
      (fun a b => a.timestamp.key ≤ b.timestamp.key)).map
        MemoryRecord.id).Nodup :=
  claim_C5 c5Memories (by decide) _
    (consolidate_memories_keep_all c5Memories
      (by
        intro m hm
        simp only [c5Memories, List.mem_cons, List.not_mem_nil, or_false]
          at hm
        rcases hm with rfl | rfl | rfl <;> norm_num [importanceThreshold])
      (by decide) (by decide))

end Kairo
